import Mathlib

/-!
# Verification of the session-viewer conversation-tree core

Shallow embedding of the conversation tree reconstruction engine
(`tree.ts`), the log decoder entry points (`parser.server.ts`) and the
minimap layout helpers (`minimap.ts`) of the session-viewer repository,
together with proofs of the specified properties.

Modelling conventions:
* TypeScript `number` is modelled as `ℚ` (exact arithmetic).
* Optional / nullable fields are modelled as `Option`; `x ?? d` becomes
  `x.getD d`.  `parentUuid : string | null | undefined` collapses
  `null`/`undefined` to `none` (the code only ever tests it with `??`
  and truthiness, which treat the two identically).
* `Record<string, unknown>` JSON data is modelled by the `JsonValue`
  type below; objects are association lists.
* String comparison (`<`, `>`, `localeCompare`) is modelled by the
  lexicographic order on `String`, as the spec prescribes for ISO-8601
  timestamps.
* `Array.prototype.sort` is stable (ECMAScript spec); the output of a
  stable sort is uniquely determined by the comparator, so it is
  modelled by a stable insertion sort.
-/

namespace SessionViewer

/-- A JSON value (`unknown` data carried in tool inputs etc.). -/
inductive JsonValue : Type where
  | null : JsonValue
  | bool (b : Bool) : JsonValue
  | num (q : ℚ) : JsonValue
  | str (s : String) : JsonValue
  | arr (elems : List JsonValue) : JsonValue
  | obj (fields : List (String × JsonValue)) : JsonValue

/-- Look up a field of a JSON object association list (JS property
access; object literals cannot carry duplicate keys). -/
def jsonLookup (fields : List (String × JsonValue)) (k : String) : Option JsonValue :=
  (fields.find? (fun p => p.1 = k)).map (fun p => p.2)

mutual
/-- `ContentBlock` of `types.ts`: tagged union of the four block kinds. -/
inductive ContentBlock : Type where
  | text (text : String) : ContentBlock
  | thinking (thinking : String) (signature : Option String) : ContentBlock
  | tool_use (id : String) (name : String) (input : List (String × JsonValue)) : ContentBlock
  | tool_result (tool_use_id : String) (content : StringOrBlocks)
      (is_error : Option Bool) : ContentBlock

/-- A `string | ContentBlock[]` union (message content, tool-result content). -/
inductive StringOrBlocks : Type where
  | str (s : String) : StringOrBlocks
  | blocks (bs : List ContentBlock) : StringOrBlocks
end

/-- `TokenUsage` of `types.ts`. -/
structure TokenUsage : Type where
  input_tokens : ℚ
  output_tokens : ℚ
  cache_creation_input_tokens : Option ℚ
  cache_read_input_tokens : Option ℚ
  service_tier : Option String

/-- The `role` field of an API message. -/
inductive ApiRole : Type where
  | user : ApiRole
  | assistant : ApiRole

/-- `ApiMessage` of `types.ts` (the `message` payload of a raw record). -/
structure ApiMessage : Type where
  role : ApiRole
  content : StringOrBlocks
  model : Option String
  id : Option String
  type : Option String
  stop_reason : Option String
  usage : Option TokenUsage

/-- The `type` discriminant of a raw log entry. -/
inductive EntryType : Type where
  | user : EntryType
  | assistant : EntryType
  | system : EntryType
  | progress : EntryType
  | summary : EntryType
  | fileHistorySnapshot : EntryType
  | queueOperation : EntryType
deriving DecidableEq

/-- `RawLogEntry` of `types.ts`, restricted to the fields that the
functions verified here ever read.  The remaining optional metadata
fields (`sessionId`, `cwd`, `gitBranch`, `agentId`, …) are never
inspected by the tree builder, the thread builder, the first-prompt
extractor or the minimap helpers, and are omitted. -/
structure RawLogEntry : Type where
  type : EntryType
  uuid : Option String
  parentUuid : Option String
  timestamp : Option String
  isSidechain : Option Bool
  isMeta : Option Bool
  message : Option ApiMessage
  summary : Option String

/-- `ParsedMessage` of `types.ts`.  `type` keeps the runtime value of the
raw entry's discriminant (the TS annotation `as "user"|"assistant"|"system"`
is a compile-time cast with no runtime effect); likewise
`subagentDescription` holds whatever JSON value sits under
`input.description` (the TS `as string | undefined` cast is erased). -/
structure ParsedMessage : Type where
  uuid : String
  parentUuid : Option String
  type : EntryType
  timestamp : String
  content : List ContentBlock
  model : Option String
  usage : Option TokenUsage
  isSidechain : Bool
  isToolResult : Bool
  toolResultId : Option String
  isError : Option Bool
  subagentId : Option String
  subagentDescription : Option JsonValue

/-! ## Minimap layout helpers (`minimap.ts`) -/

/-- `computeBarHeights` of `minimap.ts`: proportional heights with a
minimum floor and proportional redistribution of the remaining budget. -/
def computeBarHeights (contentLengths : List ℚ) (totalHeight minBarHeight : ℚ) :
    List ℚ :=
  if contentLengths.length = 0 then []
  else
    let totalLength := contentLengths.foldl (· + ·) 0
    if totalLength = 0 then
      contentLengths.map (fun _ => totalHeight / (contentLengths.length : ℚ))
    else
      let raw := contentLengths.map (fun len => len / totalLength * totalHeight)
      let belowMin := (raw.filter (fun h => decide (h < minBarHeight))).length
      if belowMin = 0 then raw
      else
        let minTotal := (belowMin : ℚ) * minBarHeight
        let remainingHeight := totalHeight - minTotal
        let aboveMinTotal :=
          (raw.filter (fun h => decide (minBarHeight ≤ h))).foldl (· + ·) 0
        raw.map (fun h =>
          if h < minBarHeight then minBarHeight
          else if 0 < aboveMinTotal then h / aboveMinTotal * remainingHeight else h)

/-- The scan loop of `hitTestMessageIndex`: accumulate heights and return
the first index whose cumulative height exceeds the click offset
(`none` when the loop falls through). -/
def hitTestLoop (clickY : ℚ) (cum : ℚ) : List ℚ → Option Nat
  | [] => none
  | h :: rest =>
    if clickY < cum + h then some 0
    else (hitTestLoop clickY (cum + h) rest).map (· + 1)

/-- `hitTestMessageIndex` of `minimap.ts`. -/
def hitTestMessageIndex (clickY : ℚ) (barHeights : List ℚ) : Nat :=
  if barHeights.length = 0 then 0
  else
    match hitTestLoop clickY 0 barHeights with
    | some i => i
    | none => barHeights.length - 1

/-! ## Shared message normalisation (`parser.server.ts` / `tree.ts`)

The body of the `buildConversationThread` loop and the helper
`entryToParsedMessage` of `tree.ts` are the same code (the latter's doc
comment says "Matches buildConversationThread logic"); both are embedded
by the single function `entryToParsedMessage` below. -/

/-- The function `normalizeContent`: a falsy content (absent, or the
empty string) becomes `[]`, a bare string becomes a single text block,
an array is kept.  In JS the emptiness test is the truthiness check
`!content`, which is also true for the empty string. -/
def normalizeContent : StringOrBlocks → List ContentBlock
  | .str s => if s = "" then [] else [ContentBlock.text s]
  | .blocks bs => bs

/-- Test used by `content.find((b) => b.type === "tool_result")`. -/
def isToolResultBlock : ContentBlock → Bool
  | .tool_result _ _ _ => true
  | _ => false

/-- Test for a text block (used by `extractFirstPrompt`). -/
def isTextBlock : ContentBlock → Bool
  | .text _ => true
  | _ => false

/-- The scan over all content blocks for `tool_use` blocks named
`"Task"`; the JS loop overwrites `subagentId`/`subagentDescription` on
every match, so the last matching block wins. -/
def taskScan (content : List ContentBlock) : Option String × Option JsonValue :=
  content.foldl
    (fun acc b =>
      match b with
      | ContentBlock.tool_use id name input =>
        if name = "Task" then (some id, jsonLookup input "description") else acc
      | _ => acc)
    (none, none)

/-- Conversion of one (already filtered) raw entry into a
`ParsedMessage`; the loop body of `buildConversationThread` and
`entryToParsedMessage` of `tree.ts`. -/
def entryToParsedMessage (entry : RawLogEntry) : ParsedMessage :=
  let content := match entry.message with
    | none => []
    | some msg => normalizeContent msg.content
  let toolResultBlock := content.find? isToolResultBlock
  { uuid := entry.uuid.getD ""
    parentUuid := entry.parentUuid
    type := entry.type
    timestamp := entry.timestamp.getD ""
    content := content
    model := entry.message.bind (fun m => m.model)
    usage := entry.message.bind (fun m => m.usage)
    isSidechain := entry.isSidechain.getD false
    isToolResult := toolResultBlock.isSome
    toolResultId :=
      match toolResultBlock with
      | some (ContentBlock.tool_result id _ _) => some id
      | _ => none
    isError :=
      match toolResultBlock with
      | some (ContentBlock.tool_result _ _ ie) => some (ie.getD false)
      | _ => none
    subagentId := (taskScan content).1
    subagentDescription := (taskScan content).2 }

/-- The filter applied by both `buildConversationThread` and the first
pass of `buildMessageTree`: keep `user`/`assistant` records that carry a
truthy `uuid` (present and non-empty) and a `message` payload and are
not flagged `isMeta`. -/
def isValidEntry (e : RawLogEntry) : Bool :=
  (decide (e.type = EntryType.user) || decide (e.type = EntryType.assistant)) &&
    (match e.uuid with | none => false | some s => decide (s ≠ "")) &&
    e.message.isSome &&
    !(e.isMeta.getD false)

/-! ## Sorting

`Array.prototype.sort` is stable, and a stable sort's output is uniquely
determined by the comparator, so both sorts of the code (ascending by
`timestamp` in `buildConversationThread`, descending by deepest
timestamp in `getBranchPoints`) are embedded as stable insertion
sorts. -/

/-- Stable insertion (ascending by `timestamp`): a message is inserted
in front of the first element whose timestamp is not smaller, i.e. after
every strictly earlier element and before equal ones coming from later
input positions — the stable order of `(a, b) => a.timestamp.localeCompare(b.timestamp)`. -/
def insertAsc (x : ParsedMessage) : List ParsedMessage → List ParsedMessage
  | [] => [x]
  | y :: ys => if x.timestamp ≤ y.timestamp then x :: y :: ys else y :: insertAsc x ys

/-- Stable sort of messages by ascending timestamp
(`messages.sort((a, b) => a.timestamp.localeCompare(b.timestamp))`). -/
def sortByTimestamp : List ParsedMessage → List ParsedMessage
  | [] => []
  | x :: xs => insertAsc x (sortByTimestamp xs)

/-- The function `buildConversationThread` of `parser.server.ts`: filter
and convert the raw records, then sort by timestamp. -/
def buildConversationThread (entries : List RawLogEntry) : List ParsedMessage :=
  sortByTimestamp ((entries.filter (fun e => isValidEntry e)).map entryToParsedMessage)

/-- JS `s.slice(0, n)` (modelled at code-point granularity). -/
def jsSlice (s : String) (n : Nat) : String :=
  String.mk (s.data.take n)

/-- The function `extractFirstPrompt` of `parser.server.ts`: walk the
records in order; for each non-meta `user` record, return its string
content (truncated to 200) if the content is a string, or the text of
its first text block (truncated to 200) if the content is an array
containing one; otherwise keep scanning.  Falls back to "No prompt". -/
def extractFirstPrompt : List RawLogEntry → String
  | [] => "No prompt"
  | e :: rest =>
    if e.type ≠ EntryType.user ∨ e.isMeta.getD false then extractFirstPrompt rest
    else
      match e.message with
      | none => extractFirstPrompt rest
      | some msg =>
        match msg.content with
        | .str s => jsSlice s 200
        | .blocks bs =>
          match bs.find? isTextBlock with
          | some (ContentBlock.text t) => jsSlice t 200
          | _ => extractFirstPrompt rest

/-! ## The message tree (`tree.ts`) -/

/-- A node of the message forest (`MessageNode` of `tree.ts`). -/
inductive MessageNode : Type where
  | mk (entry : ParsedMessage) (children : List MessageNode) : MessageNode

/-- Projection to the wrapped message. -/
def MessageNode.entry : MessageNode → ParsedMessage
  | .mk e _ => e

/-- Projection to the child list. -/
def MessageNode.children : MessageNode → List MessageNode
  | .mk _ cs => cs

/-- A branch point (`BranchPoint` of `tree.ts`). -/
structure BranchPoint : Type where
  messageIndex : Nat
  forkMessageUuid : String
  paths : List (List ParsedMessage)

/-- Semantics of `Map.prototype.set` on an association list: an existing
key keeps its position and gets the new value, a new key is appended. -/
def mapSet {α : Type} (m : List (String × α)) (k : String) (v : α) :
    List (String × α) :=
  if m.any (fun p => p.1 = k) then
    m.map (fun p => if p.1 = k then (k, v) else p)
  else m ++ [(k, v)]

/-- Semantics of `Map.prototype.get`: the keys of the association lists
built by `mapSet` are pairwise distinct, so the first hit is the entry. -/
def mapGet {α : Type} (m : List (String × α)) (k : String) : Option α :=
  (m.find? (fun p => p.1 = k)).map (fun p => p.2)

/-- Semantics of `Map.prototype.has`. -/
def mapHas {α : Type} (m : List (String × α)) (k : String) : Bool :=
  m.any (fun p => p.1 = k)

/-- First pass of `buildMessageTree`: fill `nodesByUuid` with one parsed
message per valid entry, keyed by uuid (duplicate uuids: last value
wins, first position kept, per `Map.set`). -/
def nodesByUuidOf (entries : List RawLogEntry) : List (String × ParsedMessage) :=
  entries.foldl
    (fun m e =>
      if isValidEntry e then mapSet m (e.uuid.getD "") (entryToParsedMessage e) else m)
    []

/-- The test `parentUuid && nodesByUuid.has(parentUuid)` of the second
pass: the parent reference is truthy (non-null, non-empty) and present. -/
def hasLinkedParent (m : List (String × ParsedMessage)) (v : ParsedMessage) : Bool :=
  match v.parentUuid with
  | none => false
  | some p => decide (p ≠ "") && mapHas m p

/-- The children attached to the node stored under key `u` by the second
pass of `buildMessageTree`, in map iteration order. -/
def childrenOf (m : List (String × ParsedMessage)) (u : String) : List ParsedMessage :=
  (m.map (fun p => p.2)).filter (fun v => hasLinkedParent m v && decide (v.parentUuid = some u))

/-- The values pushed to `roots` by the second pass. -/
def rootsOf (m : List (String × ParsedMessage)) : List ParsedMessage :=
  (m.map (fun p => p.2)).filter (fun v => !hasLinkedParent m v)

/-- Materialisation of the node graph wired up by the second pass.  The
JS code links heap objects in place; since every node is pushed to at
most one parent, the part of the graph reachable from the roots is a
genuine forest whose paths visit pairwise-distinct map entries, so a
recursion depth of `m.length` reproduces it exactly (the fuel never
runs out on a reachable child list). -/
def buildNode (m : List (String × ParsedMessage)) : Nat → ParsedMessage → MessageNode
  | 0, v => .mk v []
  | fuel + 1, v => .mk v ((childrenOf m v.uuid).map (buildNode m fuel))

/-- The function `buildMessageTree` of `tree.ts`. -/
def buildMessageTree (entries : List RawLogEntry) : List MessageNode :=
  let m := nodesByUuidOf entries
  (rootsOf m).map (buildNode m m.length)

mutual
/-- The function `deepestTimestamp` of `tree.ts` (mutually with its
child loop): the latest timestamp anywhere in the subtree, by direct
string comparison (`childTs > latest`). -/
def deepestTimestamp : MessageNode → String
  | .mk e cs => deepestAux e.timestamp cs
termination_by structural n => n

/-- The `for (const child of node.children)` loop inside
`deepestTimestamp`, carrying the running `latest` value. -/
def deepestAux : String → List MessageNode → String
  | latest, [] => latest
  | latest, c :: cs =>
    deepestAux (if latest < deepestTimestamp c then deepestTimestamp c else latest) cs
termination_by structural _ l => l
end

/-- One step of the `reduce` comparisons: keep the current best unless
the candidate's deepest timestamp is strictly greater
(`deepestTimestamp(child) > deepestTimestamp(best) ? child : best`). -/
def pickStep (best child : MessageNode) : MessageNode :=
  if deepestTimestamp best < deepestTimestamp child then child else best

/-- JS `array.reduce(step)` without an initial value on the non-empty
array `n :: ns`: fold the tail starting from the head. -/
def pickBest (n : MessageNode) (ns : List MessageNode) : MessageNode :=
  ns.foldl pickStep n

/-- The `while (current.children.length > 0)` descent loop shared
verbatim by `resolveActivePath` and `flattenBranch`: collect the entry,
then keep descending into the child with the greatest deepest
timestamp. -/
def walkDown : MessageNode → List ParsedMessage
  | .mk e [] => [e]
  | .mk e (c :: cs) => e :: walkDown (pickBest c cs)
termination_by n => sizeOf n
decreasing_by
  have hmem : pickBest c cs ∈ c :: cs := by
    have hgen : ∀ (l : List MessageNode) (a : MessageNode), l.foldl pickStep a ∈ a :: l := by
      intro l
      induction l with
      | nil => intro a; simp
      | cons x xs ih =>
        intro a
        simp only [List.foldl_cons]
        rcases List.mem_cons.mp (ih (pickStep a x)) with h | h
        · rw [h]
          unfold pickStep
          split
          · exact List.mem_cons_of_mem _ (List.mem_cons_self _ _)
          · exact List.mem_cons_self _ _
        · exact List.mem_cons_of_mem _ (List.mem_cons_of_mem _ h)
    exact hgen cs c
  have hlt := List.sizeOf_lt_of_mem hmem
  simp only [MessageNode.mk.sizeOf_spec]
  omega

/-- The function `resolveActivePath` of `tree.ts`: pick the root with
the latest deepest timestamp, then run the descent loop. -/
def resolveActivePath : List MessageNode → List ParsedMessage
  | [] => []
  | r :: rs => walkDown (pickBest r rs)

/-- The function `flattenBranch` of `tree.ts`; its body is exactly the
descent loop. -/
def flattenBranch (n : MessageNode) : List ParsedMessage :=
  walkDown n

/-- The function `collectNodes` of `tree.ts`: preorder `Map.set` of every
node keyed by its entry's uuid. -/
def collectNodes : List MessageNode → List (String × MessageNode) →
    List (String × MessageNode)
  | [], m => m
  | .mk e cs :: rest, m =>
    collectNodes rest (collectNodes cs (mapSet m e.uuid (.mk e cs)))
termination_by l _ => sizeOf l
decreasing_by
  · simp only [List.cons.sizeOf_spec, MessageNode.mk.sizeOf_spec]; omega
  · simp only [List.cons.sizeOf_spec]; omega

/-- Stable insertion (descending by deepest timestamp): a node is placed
in front of the first element with a not-greater deepest timestamp, so
equal keys keep their input order — the stable order of
`(a, b) => deepestTimestamp(b).localeCompare(deepestTimestamp(a))`. -/
def insertDesc (x : MessageNode) : List MessageNode → List MessageNode
  | [] => [x]
  | y :: ys =>
    if deepestTimestamp y ≤ deepestTimestamp x then x :: y :: ys else y :: insertDesc x ys

/-- Stable sort of child nodes, newest deepest timestamp first. -/
def sortByDeepestDesc : List MessageNode → List MessageNode
  | [] => []
  | x :: xs => insertDesc x (sortByDeepestDesc xs)

/-- The indexed `for (let i = 0; ...)` loop of `getBranchPoints`. -/
def branchLoop (m : List (String × MessageNode)) : Nat → List ParsedMessage →
    List BranchPoint
  | _, [] => []
  | i, msg :: rest =>
    match mapGet m msg.uuid with
    | none => branchLoop m (i + 1) rest
    | some node =>
      if node.children.length ≤ 1 then branchLoop m (i + 1) rest
      else
        { messageIndex := i
          forkMessageUuid := msg.uuid
          paths := (sortByDeepestDesc node.children).map flattenBranch } ::
          branchLoop m (i + 1) rest

/-- The function `getBranchPoints` of `tree.ts`. -/
def getBranchPoints (roots : List MessageNode) (activePath : List ParsedMessage) :
    List BranchPoint :=
  branchLoop (collectNodes roots []) 0 activePath

/-! ## Proof-side gadgets (not part of the source) -/

/-- The nodes visited by the descent loop, in visit order
(`walkDown n = (descendNodes n).map MessageNode.entry`). -/
def descendNodes : MessageNode → List MessageNode
  | .mk e [] => [.mk e []]
  | .mk e (c :: cs) => .mk e (c :: cs) :: descendNodes (pickBest c cs)
termination_by n => sizeOf n
decreasing_by
  have hmem : pickBest c cs ∈ c :: cs := by
    have hgen : ∀ (l : List MessageNode) (a : MessageNode), l.foldl pickStep a ∈ a :: l := by
      intro l
      induction l with
      | nil => intro a; simp
      | cons x xs ih =>
        intro a
        simp only [List.foldl_cons]
        rcases List.mem_cons.mp (ih (pickStep a x)) with h | h
        · rw [h]
          unfold pickStep
          split
          · exact List.mem_cons_of_mem _ (List.mem_cons_self _ _)
          · exact List.mem_cons_self _ _
        · exact List.mem_cons_of_mem _ (List.mem_cons_of_mem _ h)
    exact hgen cs c
  have hlt := List.sizeOf_lt_of_mem hmem
  simp only [MessageNode.mk.sizeOf_spec]
  omega

mutual
/-- All nodes of a subtree, in preorder. -/
def subNodes : MessageNode → List MessageNode
  | .mk e cs => .mk e cs :: subNodesList cs
termination_by structural n => n

/-- All nodes of a forest, in preorder. -/
def subNodesList : List MessageNode → List MessageNode
  | [] => []
  | c :: cs => subNodes c ++ subNodesList cs
termination_by structural l => l
end

/-- The messages contained in a forest, in preorder. -/
def forestMessages (roots : List MessageNode) : List ParsedMessage :=
  (subNodesList roots).map MessageNode.entry

mutual
/-- Decides whether no node of a subtree has more than one child. -/
def noMultiChild : MessageNode → Bool
  | .mk _ cs => decide (cs.length ≤ 1) && noMultiChildList cs
termination_by structural n => n

/-- Decides whether no node of a forest has more than one child. -/
def noMultiChildList : List MessageNode → Bool
  | [] => true
  | c :: cs => noMultiChild c && noMultiChildList cs
termination_by structural l => l
end

/-- Decides whether a tree is a single chain (no node with two children)
whose timestamps never decrease from parent to child. -/
def isMonoChain : MessageNode → Bool
  | .mk _ [] => true
  | .mk e [c] => decide (e.timestamp ≤ c.entry.timestamp) && isMonoChain c
  | .mk _ (_ :: _ :: _) => false
termination_by n => sizeOf n
decreasing_by simp only [List.cons.sizeOf_spec, MessageNode.mk.sizeOf_spec]; omega

mutual
/-- Decides whether every child's `parentUuid` in a subtree points to its
parent's uuid (true of every forest built by `buildMessageTree`). -/
def wellLinked : MessageNode → Bool
  | .mk e cs => wellLinkedList e.uuid cs
termination_by structural n => n

/-- Child-list part of `wellLinked`. -/
def wellLinkedList : String → List MessageNode → Bool
  | _, [] => true
  | u, c :: cs =>
    decide (c.entry.parentUuid = some u) && wellLinked c && wellLinkedList u cs
termination_by structural _ l => l
end

/-- Reading of "the text content of a record" used by the first-prompt
claims: a string message body, or else the text of the first text block
of an array body. -/
def userTextContent (e : RawLogEntry) : Option String :=
  match e.message with
  | none => none
  | some msg =>
    match msg.content with
    | .str s => some s
    | .blocks bs =>
      match bs.find? isTextBlock with
      | some (ContentBlock.text t) => some t
      | _ => none

/-! ## Concrete instances used to witness and refute claims -/

/-- A minimal message for concrete test forests. -/
def mkMsg (u : String) (p : Option String) (ts : String) : ParsedMessage :=
  { uuid := u, parentUuid := p, type := EntryType.user, timestamp := ts,
    content := [], model := none, usage := none, isSidechain := false,
    isToolResult := false, toolResultId := none, isError := none,
    subagentId := none, subagentDescription := none }

/-- A single chain whose timestamps decrease from root to leaf. -/
def cexForestC1 : List MessageNode :=
  [.mk (mkMsg "r" none "2") [.mk (mkMsg "c" (some "r") "1") []]]

/-- A single chain whose timestamps increase from root to leaf. -/
def exChainMono : MessageNode :=
  .mk (mkMsg "r" none "1") [.mk (mkMsg "c" (some "r") "2") []]

/-- A root with two leaf children of distinct timestamps. -/
def exForkForest : List MessageNode :=
  [.mk (mkMsg "a1" none "1")
    [.mk (mkMsg "u2" (some "a1") "2") [], .mk (mkMsg "u3" (some "a1") "3") []]]

/-- The active path of `exForkForest`. -/
def exForkPath : List ParsedMessage := resolveActivePath exForkForest

/-- The single branch point of `exForkForest`. -/
def exForkBp : BranchPoint :=
  { messageIndex := 0, forkMessageUuid := "a1",
    paths := [[mkMsg "u3" (some "a1") "3"], [mkMsg "u2" (some "a1") "2"]] }

/-- A root with two leaf children of equal timestamps. -/
def cexForestC3 : List MessageNode :=
  [.mk (mkMsg "r" none "1")
    [.mk (mkMsg "u2" (some "r") "2") [], .mk (mkMsg "u3" (some "r") "2") []]]

/-- A valid raw record whose parent reference matches nothing. -/
def exDanglingEntry : RawLogEntry :=
  { type := EntryType.user, uuid := some "w1", parentUuid := some "ghost",
    timestamp := some "1", isSidechain := none, isMeta := none,
    message := some ⟨ApiRole.user, StringOrBlocks.str "hi", none, none, none, none, none⟩,
    summary := none }

/-- A non-meta user record carrying no text content (empty block array). -/
def cexPromptEntryA : RawLogEntry :=
  { type := EntryType.user, uuid := some "p1", parentUuid := none,
    timestamp := some "1", isSidechain := none, isMeta := none,
    message := some ⟨ApiRole.user, StringOrBlocks.blocks [], none, none, none, none, none⟩,
    summary := none }

/-- A later non-meta user record with a string body. -/
def cexPromptEntryB : RawLogEntry :=
  { type := EntryType.user, uuid := some "p2", parentUuid := some "p1",
    timestamp := some "2", isSidechain := none, isMeta := none,
    message := some ⟨ApiRole.user, StringOrBlocks.str "hello", none, none, none, none, none⟩,
    summary := none }

/-! # Helper lemmas -/

theorem foldl_add_eq_sum (l : List ℚ) (a : ℚ) : l.foldl (· + ·) a = a + l.sum := by
  induction l generalizing a with
  | nil => simp
  | cons x xs ih => simp only [List.foldl_cons, ih, List.sum_cons]; ring

theorem sum_map_div_mul (l : List ℚ) (T H : ℚ) :
    (l.map (fun x => x / T * H)).sum = l.sum / T * H := by
  induction l with
  | nil => simp
  | cons x xs ih => simp only [List.map_cons, List.sum_cons, ih]; ring

theorem sum_map_ite (l : List ℚ) (p : ℚ → Bool) (f g : ℚ → ℚ) :
    (l.map (fun h => if p h then f h else g h)).sum =
      ((l.filter p).map f).sum + ((l.filter (fun h => !p h)).map g).sum := by
  induction l with
  | nil => simp
  | cons x xs ih =>
    by_cases hx : p x <;> simp [List.filter_cons, hx, ih] <;> ring

theorem sum_filter_add_sum_filter_not (l : List ℚ) (p : ℚ → Bool) :
    (l.filter p).sum + (l.filter (fun x => !p x)).sum = l.sum := by
  have h := sum_map_ite l p id id
  simpa using h.symm

theorem sum_lt_of_all_lt (l : List ℚ) (m : ℚ) (hne : l ≠ []) (h : ∀ x ∈ l, x < m) :
    l.sum < m * l.length := by
  induction l with
  | nil => exact absurd rfl hne
  | cons x xs ih =>
    rcases eq_or_ne xs [] with rfl | hxs
    · have := h x (List.mem_cons_self _ _)
      simpa using this
    · have h1 := ih hxs (fun y hy => h y (List.mem_cons_of_mem _ hy))
      have hx := h x (List.mem_cons_self _ _)
      simp only [List.sum_cons, List.length_cons]
      push_cast
      nlinarith

theorem sum_map_const_rat (l : List ℚ) (c : ℚ) :
    (l.map (fun _ => c)).sum = l.length * c := by
  induction l with
  | nil => simp
  | cons x xs ih => simp only [List.map_cons, List.sum_cons, ih, List.length_cons]; push_cast; ring

/-! # Claim C4 — height conservation of `computeBarHeights` -/

/-- C4 counterexample: at `lengths = [0, 5]`, `totalHeight = -2`,
`minBarHeight = -1` the stated hypothesis `minBarHeight × count ≤
totalHeight` holds, yet the returned heights sum to `-1`, off by `1`
from `totalHeight` — far beyond the `1e-6` tolerance. -/
theorem computeBarHeights_claim_cex :
    (-1 : ℚ) * (([0, 5] : List ℚ).length : ℚ) ≤ -2 ∧
    ¬ |(computeBarHeights [0, 5] (-2) (-1)).sum - (-2)| ≤ 1 / 1000000 := by
  constructor
  · norm_num
  · norm_num [computeBarHeights]

/-- C4 (amended): whenever `lengths` is non-empty, `totalHeight` is
nonnegative and `minBarHeight × count ≤ totalHeight`, the heights
returned by `computeBarHeights` sum exactly to `totalHeight`. -/
theorem computeBarHeights_height_conservation (l : List ℚ) (H m : ℚ) (hne : l ≠ [])
    (hH : 0 ≤ H) (hbudget : m * l.length ≤ H) :
    (computeBarHeights l H m).sum = H := by
  unfold computeBarHeights
  have hlen0 : ¬ l.length = 0 := by simpa [List.length_eq_zero] using hne
  rw [if_neg hlen0]
  have hTsum : l.foldl (· + ·) 0 = l.sum := by rw [foldl_add_eq_sum]; ring
  by_cases hT0 : l.foldl (· + ·) 0 = 0
  · rw [if_pos hT0]
    rw [sum_map_const_rat]
    field_simp
  · rw [if_neg hT0]
    have hsum0 : l.sum ≠ 0 := by rw [← hTsum]; exact hT0
    set raw := l.map (fun len => len / (l.foldl (· + ·) 0) * H) with hraw
    have hrawlen : raw.length = l.length := by rw [hraw, List.length_map]
    have hrawsum : raw.sum = H := by
      rw [hraw, sum_map_div_mul, hTsum, div_self hsum0, one_mul]
    by_cases hB : (raw.filter (fun h => decide (h < m))).length = 0
    · rw [if_pos hB]
      exact hrawsum
    · rw [if_neg hB]
      set b := (raw.filter (fun h => decide (h < m))).length with hb
      set R := H - (b : ℚ) * m with hR
      set A := (raw.filter (fun h => decide (m ≤ h))).foldl (· + ·) 0 with hA
      have hAsum : A = (raw.filter (fun h => decide (m ≤ h))).sum := by
        rw [hA, foldl_add_eq_sum]; ring
      have hfilter_not : raw.filter (fun h => !(decide (h < m))) =
          raw.filter (fun h => decide (m ≤ h)) := by
        apply List.filter_congr
        intro x _
        by_cases h : x < m
        · simp [h, not_le.mpr h]
        · simp [h, not_lt.mp h]
      have hpart : (raw.filter (fun h => decide (h < m))).sum + A = raw.sum := by
        rw [hAsum, ← hfilter_not]
        exact sum_filter_add_sum_filter_not raw _
      have hApos : 0 < A := by
        rcases le_or_lt m 0 with hm | hm
        · -- every element below the minimum is negative, so their sum is negative
          have hBne : raw.filter (fun h => decide (h < m)) ≠ [] := by
            intro hnil
            rw [hb, hnil] at hB
            simp at hB
          have hBlt : (raw.filter (fun h => decide (h < m))).sum <
              m * (raw.filter (fun h => decide (h < m))).length := by
            apply sum_lt_of_all_lt _ _ hBne
            intro x hx
            have := List.of_mem_filter hx
            simpa using this
          have hBneg : (raw.filter (fun h => decide (h < m))).sum < 0 := by
            have hlenpos : 0 < ((raw.filter (fun h => decide (h < m))).length : ℚ) := by
              have : (raw.filter (fun h => decide (h < m))).length ≠ 0 := by
                intro h0
                exact hBne (List.length_eq_zero.mp h0)
              positivity
            nlinarith
          nlinarith [hrawsum, hpart]
        · -- the minimum is positive; some bar is above it, and all of those are positive
          rcases eq_or_ne (raw.filter (fun h => decide (m ≤ h))) [] with hnil | hnnil
          · exfalso
            have hall : ∀ x ∈ raw, x < m := by
              intro x hx
              by_contra hge
              have : x ∈ raw.filter (fun h => decide (m ≤ h)) :=
                List.mem_filter.mpr ⟨hx, by simpa using not_lt.mp hge⟩
              rw [hnil] at this
              simp at this
            have hrne : raw ≠ [] := by
              intro h0
              rw [h0] at hrawlen
              exact hlen0 hrawlen.symm
            have := sum_lt_of_all_lt raw m hrne hall
            rw [hrawsum, hrawlen] at this
            linarith
          · rw [hAsum]
            apply List.sum_pos
            · intro x hx
              have := List.of_mem_filter hx
              have hmx : m ≤ x := by simpa using this
              linarith
            · exact hnnil
      have hmap : (raw.map (fun h =>
          if h < m then m else if 0 < A then h / A * R else h)) =
          raw.map (fun h => if decide (h < m) then m else h / A * R) := by
        apply List.map_congr_left
        intro x _
        by_cases hx : x < m
        · simp [hx]
        · simp [hx, hApos]
      rw [hmap, sum_map_ite, hfilter_not, sum_map_const_rat, sum_map_div_mul, hAsum.symm,
        div_self (ne_of_gt hApos), one_mul, ← hb, hR]
      ring

/-- C4 witness: scenario `computeBarHeights [1, 1000] 100 5` (non-empty,
nonnegative total height, `5 × 2 ≤ 100`) sums to `100`. -/
theorem computeBarHeights_height_conservation_witness :
    (([1, 1000] : List ℚ) ≠ [] ∧ (0 : ℚ) ≤ 100 ∧
      (5 : ℚ) * (([1, 1000] : List ℚ).length : ℚ) ≤ 100) ∧
    (computeBarHeights [1, 1000] 100 5).sum = 100 :=
  ⟨⟨by simp, by norm_num, by norm_num⟩,
    computeBarHeights_height_conservation [1, 1000] 100 5 (by simp) (by norm_num) (by norm_num)⟩

/-! # Claim C5 — hit testing -/

theorem hitTestLoop_lt_length (l : List ℚ) (o c : ℚ) (i : Nat)
    (h : hitTestLoop o c l = some i) : i < l.length := by
  induction l generalizing c i with
  | nil => simp [hitTestLoop] at h
  | cons x xs ih =>
    rw [hitTestLoop] at h
    by_cases hx : o < c + x
    · rw [if_pos hx] at h
      cases h
      simp
    · rw [if_neg hx] at h
      rcases Option.map_eq_some'.mp h with ⟨j, hj, rfl⟩
      have := ih (c + x) j hj
      simpa using this

theorem hitTestLoop_bounds (l : List ℚ) (o c : ℚ) (i : Nat) (hc : c ≤ o)
    (h : hitTestLoop o c l = some i) :
    c + (l.take i).sum ≤ o ∧ o < c + (l.take (i + 1)).sum := by
  induction l generalizing c i with
  | nil => simp [hitTestLoop] at h
  | cons x xs ih =>
    rw [hitTestLoop] at h
    by_cases hx : o < c + x
    · rw [if_pos hx] at h
      cases h
      constructor
      · simpa using hc
      · simpa using hx
    · rw [if_neg hx] at h
      rcases Option.map_eq_some'.mp h with ⟨j, hj, rfl⟩
      have hcx : c + x ≤ o := not_lt.mp hx
      have := ih (c + x) j hcx hj
      constructor
      · have := this.1
        simp only [List.take_succ_cons, List.sum_cons]
        linarith
      · have := this.2
        simp only [List.take_succ_cons, List.sum_cons]
        linarith

theorem hitTestLoop_isSome (l : List ℚ) (o c : ℚ) (hne : l ≠ [])
    (h : o < c + l.sum) : ∃ i, hitTestLoop o c l = some i := by
  induction l generalizing c with
  | nil => exact absurd rfl hne
  | cons x xs ih =>
    rw [hitTestLoop]
    by_cases hx : o < c + x
    · exact ⟨0, by rw [if_pos hx]⟩
    · rw [if_neg hx]
      rcases eq_or_ne xs [] with rfl | hxs
      · exfalso
        simp only [List.sum_cons, List.sum_nil, add_zero] at h
        exact hx (by linarith)
      · have hlt : o < c + x + xs.sum := by
          simp only [List.sum_cons] at h
          linarith
        rcases ih (c + x) hxs hlt with ⟨j, hj⟩
        exact ⟨j + 1, by rw [hj]; rfl⟩

theorem hitTestLoop_none (l : List ℚ) (o : ℚ) :
    ∀ c : ℚ, (∀ x ∈ l, 0 ≤ x) → c + l.sum ≤ o → hitTestLoop o c l = none := by
  induction l with
  | nil => intro c _ _; rfl
  | cons x xs ih =>
    intro c hnn h
    have hxs : (0 : ℚ) ≤ xs.sum :=
      List.sum_nonneg (fun y hy => hnn y (List.mem_cons_of_mem _ hy))
    rw [hitTestLoop]
    have hx : ¬ o < c + x := by
      simp only [List.sum_cons] at h
      push_neg
      linarith
    rw [if_neg hx, ih (c + x) (fun y hy => hnn y (List.mem_cons_of_mem _ hy))
      (by simp only [List.sum_cons] at h; linarith)]
    rfl

theorem hitTestLoop_mono (l : List ℚ) (o₁ o₂ c : ℚ) (h12 : o₁ ≤ o₂) (j : Nat)
    (h : hitTestLoop o₂ c l = some j) : ∃ i ≤ j, hitTestLoop o₁ c l = some i := by
  induction l generalizing c j with
  | nil => simp [hitTestLoop] at h
  | cons x xs ih =>
    rw [hitTestLoop] at h ⊢
    by_cases hx2 : o₂ < c + x
    · rw [if_pos hx2] at h
      cases h
      have hx1 : o₁ < c + x := lt_of_le_of_lt h12 hx2
      exact ⟨0, le_refl 0, by rw [if_pos hx1]⟩
    · rw [if_neg hx2] at h
      rcases Option.map_eq_some'.mp h with ⟨j', hj', rfl⟩
      by_cases hx1 : o₁ < c + x
      · exact ⟨0, Nat.zero_le _, by rw [if_pos hx1]⟩
      · rcases ih (c + x) j' hj' with ⟨i', hij, hi⟩
        refine ⟨i' + 1, by omega, ?_⟩
        rw [if_neg hx1, hi]
        rfl

/-- C5: with nonnegative bar heights, `hitTestMessageIndex` (a) maps
every offset in `[0, sum)` to a valid index whose cumulative-height
interval contains the offset, (b) is monotonic non-decreasing in the
offset, (c) clamps offsets past the end to the last index, and (d)
returns `0` on empty input. -/
theorem hitTestMessageIndex_spec (barHeights : List ℚ)
    (hnn : ∀ h ∈ barHeights, 0 ≤ h) :
    (∀ o : ℚ, barHeights ≠ [] → 0 ≤ o → o < barHeights.sum →
      hitTestMessageIndex o barHeights < barHeights.length ∧
      (barHeights.take (hitTestMessageIndex o barHeights)).sum ≤ o ∧
      o < (barHeights.take (hitTestMessageIndex o barHeights + 1)).sum) ∧
    (∀ o₁ o₂ : ℚ, o₁ ≤ o₂ →
      hitTestMessageIndex o₁ barHeights ≤ hitTestMessageIndex o₂ barHeights) ∧
    (∀ o : ℚ, barHeights ≠ [] → barHeights.sum ≤ o →
      hitTestMessageIndex o barHeights = barHeights.length - 1) ∧
    (∀ o : ℚ, hitTestMessageIndex o ([] : List ℚ) = 0) := by
  refine ⟨?_, ?_, ?_, ?_⟩
  · intro o hne h0 hlt
    have hlen : ¬ barHeights.length = 0 := by simpa [List.length_eq_zero] using hne
    rcases hitTestLoop_isSome barHeights o 0 hne (by simpa using hlt) with ⟨i, hi⟩
    have hb := hitTestLoop_bounds barHeights o 0 i h0 hi
    have hl := hitTestLoop_lt_length barHeights o 0 i hi
    rw [hitTestMessageIndex, if_neg hlen, hi]
    refine ⟨hl, by simpa using hb.1, by simpa using hb.2⟩
  · intro o₁ o₂ h12
    rcases eq_or_ne barHeights [] with rfl | hne
    · simp [hitTestMessageIndex]
    · have hlen : ¬ barHeights.length = 0 := by simpa [List.length_eq_zero] using hne
      rw [hitTestMessageIndex, hitTestMessageIndex, if_neg hlen, if_neg hlen]
      cases h2 : hitTestLoop o₂ 0 barHeights with
      | none =>
        cases h1 : hitTestLoop o₁ 0 barHeights with
        | none => exact le_refl _
        | some i =>
          have := hitTestLoop_lt_length barHeights o₁ 0 i h1
          show i ≤ barHeights.length - 1
          omega
      | some j =>
        rcases hitTestLoop_mono barHeights o₁ o₂ 0 h12 j h2 with ⟨i, hij, hi⟩
        rw [hi]
        exact hij
  · intro o hne hge
    have hlen : ¬ barHeights.length = 0 := by simpa [List.length_eq_zero] using hne
    rw [hitTestMessageIndex, if_neg hlen,
      hitTestLoop_none barHeights o 0 hnn (by simpa using hge)]
  · intro o
    rfl

/-- C5 witness: instantiated at `barHeights = [1, 2]`. -/
theorem hitTestMessageIndex_spec_witness :
    (∀ h ∈ ([1, 2] : List ℚ), 0 ≤ h) ∧
    ((∀ o : ℚ, ([1, 2] : List ℚ) ≠ [] → 0 ≤ o → o < ([1, 2] : List ℚ).sum →
      hitTestMessageIndex o [1, 2] < ([1, 2] : List ℚ).length ∧
      (([1, 2] : List ℚ).take (hitTestMessageIndex o [1, 2])).sum ≤ o ∧
      o < (([1, 2] : List ℚ).take (hitTestMessageIndex o [1, 2] + 1)).sum) ∧
    (∀ o₁ o₂ : ℚ, o₁ ≤ o₂ →
      hitTestMessageIndex o₁ [1, 2] ≤ hitTestMessageIndex o₂ [1, 2]) ∧
    (∀ o : ℚ, ([1, 2] : List ℚ) ≠ [] → ([1, 2] : List ℚ).sum ≤ o →
      hitTestMessageIndex o [1, 2] = ([1, 2] : List ℚ).length - 1) ∧
    (∀ o : ℚ, hitTestMessageIndex o ([] : List ℚ) = 0)) :=
  ⟨by norm_num, hitTestMessageIndex_spec [1, 2] (by norm_num)⟩

/-! # Sorting lemmas (timestamp order) -/

theorem insertAsc_perm (x : ParsedMessage) (l : List ParsedMessage) :
    List.Perm (insertAsc x l) (x :: l) := by
  induction l with
  | nil => simp [insertAsc]
  | cons y ys ih =>
    rw [insertAsc]
    by_cases h : x.timestamp ≤ y.timestamp
    · rw [if_pos h]
    · rw [if_neg h]
      exact (ih.cons y).trans (List.Perm.swap x y ys)

theorem insertAsc_sorted (x : ParsedMessage) (l : List ParsedMessage)
    (h : l.Pairwise (fun a b => a.timestamp ≤ b.timestamp)) :
    (insertAsc x l).Pairwise (fun a b => a.timestamp ≤ b.timestamp) := by
  induction l with
  | nil => simp [insertAsc]
  | cons y ys ih =>
    rw [insertAsc]
    rcases List.pairwise_cons.mp h with ⟨hy, hys⟩
    by_cases hxy : x.timestamp ≤ y.timestamp
    · rw [if_pos hxy]
      refine List.pairwise_cons.mpr ⟨?_, h⟩
      intro b hb
      rcases List.mem_cons.mp hb with rfl | hb
      · exact hxy
      · exact le_trans hxy (hy b hb)
    · rw [if_neg hxy]
      refine List.pairwise_cons.mpr ⟨?_, ih hys⟩
      intro b hb
      have hb' := (insertAsc_perm x ys).mem_iff.mp hb
      rcases List.mem_cons.mp hb' with rfl | hb'
      · exact le_of_not_le hxy
      · exact hy b hb'

theorem sortByTimestamp_perm (l : List ParsedMessage) :
    List.Perm (sortByTimestamp l) l := by
  induction l with
  | nil => simp [sortByTimestamp]
  | cons x xs ih =>
    rw [sortByTimestamp]
    exact (insertAsc_perm x (sortByTimestamp xs)).trans (ih.cons x)

theorem sortByTimestamp_sorted (l : List ParsedMessage) :
    (sortByTimestamp l).Pairwise (fun a b => a.timestamp ≤ b.timestamp) := by
  induction l with
  | nil => simp [sortByTimestamp]
  | cons x xs ih => exact insertAsc_sorted x _ ih

theorem sortByTimestamp_of_sorted (l : List ParsedMessage)
    (h : l.Pairwise (fun a b => a.timestamp ≤ b.timestamp)) :
    sortByTimestamp l = l := by
  induction l with
  | nil => rfl
  | cons x xs ih =>
    rcases List.pairwise_cons.mp h with ⟨hx, hxs⟩
    rw [sortByTimestamp, ih hxs]
    cases xs with
    | nil => rfl
    | cons y ys =>
      rw [insertAsc, if_pos (hx y (List.mem_cons_self _ _))]

/-! # Claim C6 — `buildConversationThread` -/

/-- C6: the thread built from a record list consists of exactly one
parsed message per valid record (user/assistant kind, truthy uuid,
message payload present, not `isMeta`) — a permutation of their in-order
conversions — and is sorted ascending by timestamp. -/
theorem buildConversationThread_spec (entries : List RawLogEntry) :
    List.Perm (buildConversationThread entries)
      ((entries.filter (fun e => isValidEntry e)).map entryToParsedMessage) ∧
    (buildConversationThread entries).Pairwise (fun a b => a.timestamp ≤ b.timestamp) :=
  ⟨sortByTimestamp_perm _, sortByTimestamp_sorted _⟩

/-! # Claim C8 — `extractFirstPrompt` -/

/-- C8 counterexample: the first non-meta user record of the batch
`[cexPromptEntryA, cexPromptEntryB]` is `cexPromptEntryA`, which has no
text content; the claim then requires the sentinel or that record's
(nonexistent) text, but the code skips it and returns the text `"hello"`
of the second record. -/
theorem extractFirstPrompt_claim_cex :
    [cexPromptEntryA, cexPromptEntryB].find?
        (fun e => decide (e.type = EntryType.user) && !(e.isMeta.getD false)) =
      some cexPromptEntryA ∧
    userTextContent cexPromptEntryA = none ∧
    extractFirstPrompt [cexPromptEntryA, cexPromptEntryB] = "hello" ∧
    "hello" ≠ "No prompt" :=
  ⟨by rfl, by rfl, by rfl, by decide⟩

/-- C8 (amended): `extractFirstPrompt` returns the 200-character
truncation of the text content of the first non-meta user record that
has text content, or "No prompt" when no such record exists. -/
theorem extractFirstPrompt_spec (entries : List RawLogEntry) :
    extractFirstPrompt entries =
      match entries.find? (fun e => decide (e.type = EntryType.user) &&
          !(e.isMeta.getD false) && (userTextContent e).isSome) with
      | some e => jsSlice ((userTextContent e).getD "") 200
      | none => "No prompt" := by
  induction entries with
  | nil => rfl
  | cons e rest ih =>
    by_cases h1 : e.type = EntryType.user
    · by_cases h2 : e.isMeta.getD false
      · simp [extractFirstPrompt, List.find?, h1, h2, ih]
      · cases hm : e.message with
        | none =>
          simp [extractFirstPrompt, List.find?, h1, h2, hm, userTextContent, ih]
        | some msg =>
          cases hc : msg.content with
          | str s =>
            simp [extractFirstPrompt, List.find?, h1, h2, hm, hc, userTextContent]
          | blocks bs =>
            cases hf : bs.find? isTextBlock with
            | none =>
              simp [extractFirstPrompt, List.find?, h1, h2, hm, hc, hf, userTextContent, ih]
            | some b =>
              have hb := List.find?_some hf
              cases b with
              | text t =>
                simp [extractFirstPrompt, List.find?, h1, h2, hm, hc, hf, userTextContent]
              | thinking s sg => simp [isTextBlock] at hb
              | tool_use i nm inp => simp [isTextBlock] at hb
              | tool_result i ct ie => simp [isTextBlock] at hb
    · simp [extractFirstPrompt, List.find?, h1, ih]

/-! # Basic node lemmas -/

theorem and_eq_true_iff {a b : Bool} : (a && b) = true ↔ a = true ∧ b = true := by
  simp

@[simp] theorem entry_mk (e : ParsedMessage) (cs : List MessageNode) :
    (MessageNode.mk e cs).entry = e := rfl

@[simp] theorem children_mk (e : ParsedMessage) (cs : List MessageNode) :
    (MessageNode.mk e cs).children = cs := rfl

theorem pickBest_mem (n : MessageNode) (ns : List MessageNode) :
    pickBest n ns ∈ n :: ns := by
  rw [pickBest]
  have hgen : ∀ (l : List MessageNode) (a : MessageNode),
      l.foldl pickStep a ∈ a :: l := by
    intro l
    induction l with
    | nil => intro a; simp
    | cons x xs ih =>
      intro a
      simp only [List.foldl_cons]
      rcases List.mem_cons.mp (ih (pickStep a x)) with h | h
      · rw [h]
        unfold pickStep
        split
        · exact List.mem_cons_of_mem _ (List.mem_cons_self _ _)
        · exact List.mem_cons_self _ _
      · exact List.mem_cons_of_mem _ (List.mem_cons_of_mem _ h)
  exact hgen ns n

theorem pickBest_nil (n : MessageNode) : pickBest n [] = n := rfl

theorem walkDown_head (n : MessageNode) : (walkDown n).head? = some n.entry := by
  cases n with
  | mk e cs =>
    cases cs with
    | nil => simp [walkDown]
    | cons c cs => simp [walkDown]

theorem walkDown_ne_nil (n : MessageNode) : walkDown n ≠ [] := by
  cases n with
  | mk e cs =>
    cases cs with
    | nil => simp [walkDown]
    | cons c cs => simp [walkDown]

/-! # Claim C1 — order preservation on chains -/

theorem monoChain_ts_le (n : MessageNode) (h : isMonoChain n = true) :
    ∀ x ∈ subNodes n, n.entry.timestamp ≤ x.entry.timestamp := by
  induction n using isMonoChain.induct with
  | case1 e =>
    intro x hx
    rw [subNodes, subNodesList] at hx
    rcases List.mem_cons.mp hx with rfl | hx
    · exact le_refl _
    · simp at hx
  | case2 e c ih =>
    rw [isMonoChain] at h
    rcases and_eq_true_iff.mp h with ⟨hts, hc⟩
    have hts' : e.timestamp ≤ c.entry.timestamp := of_decide_eq_true hts
    intro x hx
    rw [subNodes, subNodesList, subNodesList] at hx
    rcases List.mem_cons.mp hx with rfl | hx
    · exact le_refl _
    · rw [List.append_nil] at hx
      exact le_trans hts' (ih hc x hx)
  | case3 e a b rest =>
    rw [isMonoChain] at h
    exact absurd h (by simp)

theorem monoChain_sorted (n : MessageNode) (h : isMonoChain n = true) :
    ((subNodes n).map MessageNode.entry).Pairwise
      (fun a b => a.timestamp ≤ b.timestamp) := by
  induction n using isMonoChain.induct with
  | case1 e => simp [subNodes, subNodesList]
  | case2 e c ih =>
    rw [isMonoChain] at h
    rcases and_eq_true_iff.mp h with ⟨hts, hc⟩
    have hts' : e.timestamp ≤ c.entry.timestamp := of_decide_eq_true hts
    rw [subNodes, subNodesList, subNodesList, List.append_nil, List.map_cons]
    refine List.pairwise_cons.mpr ⟨?_, ih hc⟩
    intro b hb
    rcases List.mem_map.mp hb with ⟨x, hx, rfl⟩
    exact le_trans hts' (monoChain_ts_le c hc x hx)
  | case3 e a b rest =>
    rw [isMonoChain] at h
    exact absurd h (by simp)

theorem walkDown_mono_chain (n : MessageNode) (h : isMonoChain n = true) :
    walkDown n = (subNodes n).map MessageNode.entry := by
  induction n using isMonoChain.induct with
  | case1 e => simp [walkDown, subNodes, subNodesList]
  | case2 e c ih =>
    rw [isMonoChain] at h
    rcases and_eq_true_iff.mp h with ⟨_, hc⟩
    rw [walkDown, subNodes, subNodesList, subNodesList, List.append_nil, List.map_cons,
      pickBest_nil, ih hc]
    rfl
  | case3 e a b rest =>
    rw [isMonoChain] at h
    exact absurd h (by simp)

/-- C1 counterexample: the single chain `cexForestC1` (root timestamp
"2", child timestamp "1") has no node with more than one child, yet
`resolveActivePath` returns root-to-leaf order, not ascending-timestamp
order. -/
theorem resolveActivePath_order_cex :
    noMultiChildList cexForestC1 = true ∧
    resolveActivePath cexForestC1 ≠ sortByTimestamp (forestMessages cexForestC1) := by
  constructor
  · simp [cexForestC1, noMultiChildList, noMultiChild]
  · intro h
    have h2 := congrArg (List.map (fun m => m.timestamp)) h
    simp +decide [resolveActivePath, walkDown, pickBest, sortByTimestamp, insertAsc,
      forestMessages, subNodes, subNodesList, cexForestC1, mkMsg] at h2

/-- C1 (amended): for a forest consisting of one root whose tree is a
chain (no node with more than one child) with timestamps non-decreasing
from parent to child, `resolveActivePath` returns exactly its messages
in ascending-timestamp order. -/
theorem resolveActivePath_mono_chain (r : MessageNode) (h : isMonoChain r = true) :
    resolveActivePath [r] = sortByTimestamp (forestMessages [r]) := by
  have h1 : resolveActivePath [r] = walkDown r := by
    rw [resolveActivePath, pickBest_nil]
  have h2 : forestMessages [r] = (subNodes r).map MessageNode.entry := by
    rw [forestMessages, subNodesList, subNodesList, List.append_nil]
  rw [h1, h2, walkDown_mono_chain r h,
    sortByTimestamp_of_sorted _ (monoChain_sorted r h)]

/-- C1 witness: the amended statement instantiated on the ascending
two-node chain `exChainMono`. -/
theorem resolveActivePath_mono_chain_witness :
    isMonoChain exChainMono = true ∧
    resolveActivePath [exChainMono] = sortByTimestamp (forestMessages [exChainMono]) :=
  ⟨by simp +decide [exChainMono, isMonoChain, mkMsg],
    resolveActivePath_mono_chain exChainMono
      (by simp +decide [exChainMono, isMonoChain, mkMsg])⟩

/-! # Claim C7 — dangling parents become roots -/

theorem mapSet_of_not_mem {α : Type} (m : List (String × α)) (k : String) (v : α)
    (h : k ∉ m.map (fun p => p.1)) : mapSet m k v = m ++ [(k, v)] := by
  rw [mapSet, if_neg]
  intro hc
  rcases List.any_eq_true.mp hc with ⟨q, hq, hqk⟩
  exact h (List.mem_map.mpr ⟨q, hq, of_decide_eq_true hqk⟩)

theorem nodesByUuid_foldl (es : List RawLogEntry) :
    ∀ acc : List (String × ParsedMessage),
      ((es.filter (fun x => isValidEntry x)).map (fun x => x.uuid.getD "")).Nodup →
      (∀ x ∈ es, isValidEntry x = true → (x.uuid.getD "") ∉ acc.map (fun q => q.1)) →
      es.foldl (fun m e =>
          if isValidEntry e then mapSet m (e.uuid.getD "") (entryToParsedMessage e) else m)
        acc =
      acc ++ (es.filter (fun x => isValidEntry x)).map
        (fun x => (x.uuid.getD "", entryToParsedMessage x)) := by
  induction es with
  | nil => intro acc _ _; simp
  | cons e es ih =>
    intro acc hnd hdisj
    by_cases hv : isValidEntry e
    · rw [List.foldl_cons, if_pos hv,
        mapSet_of_not_mem _ _ _ (hdisj e (List.mem_cons_self _ _) hv)]
      rw [List.filter_cons_of_pos hv, List.map_cons] at hnd
      rcases List.nodup_cons.mp hnd with ⟨hnot, hnd2⟩
      rw [ih (acc ++ [(e.uuid.getD "", entryToParsedMessage e)]) hnd2 ?_]
      · rw [List.filter_cons_of_pos hv, List.map_cons, List.append_assoc]
        rfl
      · intro x hx hvx
        rw [List.map_append, List.mem_append]
        push_neg
        refine ⟨hdisj x (List.mem_cons_of_mem _ hx) hvx, ?_⟩
        intro hmem
        simp only [List.map_cons, List.map_nil, List.mem_singleton] at hmem
        exact hnot (hmem ▸ List.mem_map.mpr ⟨x, List.mem_filter.mpr ⟨hx, hvx⟩, rfl⟩)
    · rw [List.foldl_cons, if_neg hv]
      rw [List.filter_cons_of_neg (by simpa using hv)] at hnd ⊢
      exact ih acc hnd (fun x hx => hdisj x (List.mem_cons_of_mem _ hx))

theorem nodesByUuidOf_eq (entries : List RawLogEntry)
    (hnd : ((entries.filter (fun x => isValidEntry x)).map (fun x => x.uuid.getD "")).Nodup) :
    nodesByUuidOf entries = (entries.filter (fun x => isValidEntry x)).map
      (fun x => (x.uuid.getD "", entryToParsedMessage x)) := by
  have := nodesByUuid_foldl entries [] hnd (by simp)
  simpa [nodesByUuidOf] using this

theorem buildNode_entry (m : List (String × ParsedMessage)) (fuel : Nat)
    (v : ParsedMessage) : (buildNode m fuel v).entry = v := by
  cases fuel <;> rfl

theorem isValidEntry_uuid (x : RawLogEntry) (h : isValidEntry x = true) :
    ∃ s, x.uuid = some s ∧ s ≠ "" := by
  rw [isValidEntry] at h
  rcases and_eq_true_iff.mp h with ⟨h1, _⟩
  rcases and_eq_true_iff.mp h1 with ⟨h2, _⟩
  rcases and_eq_true_iff.mp h2 with ⟨_, h3⟩
  cases hu : x.uuid with
  | none => rw [hu] at h3; simp at h3
  | some s =>
    rw [hu] at h3
    exact ⟨s, rfl, of_decide_eq_true h3⟩

/-- C7: a valid record whose `parentUuid` matches no valid record's uuid
in the batch is turned into a forest root by `buildMessageTree` — it is
not dropped and (the function being total) no error is raised. -/
theorem buildMessageTree_dangling_root (entries : List RawLogEntry) (e : RawLogEntry)
    (he : e ∈ entries) (hv : isValidEntry e = true)
    (hnd : ((entries.filter (fun x => isValidEntry x)).map (fun x => x.uuid.getD "")).Nodup)
    (p : String) (hp : e.parentUuid = some p)
    (hdang : ∀ x ∈ entries, isValidEntry x = true → x.uuid ≠ some p) :
    ∃ r ∈ buildMessageTree entries, r.entry = entryToParsedMessage e := by
  have hm := nodesByUuidOf_eq entries hnd
  have hmemf : e ∈ entries.filter (fun x => isValidEntry x) := List.mem_filter.mpr ⟨he, hv⟩
  have hval : entryToParsedMessage e ∈ (nodesByUuidOf entries).map (fun q => q.2) := by
    rw [hm, List.map_map]
    exact List.mem_map.mpr ⟨e, hmemf, rfl⟩
  have hkeys : ∀ k ∈ (nodesByUuidOf entries).map (fun q => q.1), k ≠ p := by
    rw [hm, List.map_map]
    intro k hk
    rcases List.mem_map.mp hk with ⟨x, hx, rfl⟩
    rcases List.mem_filter.mp hx with ⟨hxe, hxv⟩
    intro hkp
    rcases isValidEntry_uuid x hxv with ⟨s, hs, _⟩
    apply hdang x hxe hxv
    rw [hs]
    simp only [Function.comp] at hkp
    rw [hs] at hkp
    simp only [Option.getD_some] at hkp
    rw [hkp]
  have hroot : entryToParsedMessage e ∈ rootsOf (nodesByUuidOf entries) := by
    rw [rootsOf, List.mem_filter]
    refine ⟨hval, ?_⟩
    have hpp : (entryToParsedMessage e).parentUuid = some p := by
      simp [entryToParsedMessage, hp]
    rw [hasLinkedParent, hpp]
    by_cases hpe : p = ""
    · simp [hpe]
    · have hhas : mapHas (nodesByUuidOf entries) p = false := by
        rw [mapHas]
        rw [List.any_eq_false]
        intro q hq
        simp only [decide_eq_true_eq]
        exact hkeys q.1 (List.mem_map.mpr ⟨q, hq, rfl⟩)
      simp [hhas]
  refine ⟨buildNode (nodesByUuidOf entries) (nodesByUuidOf entries).length
    (entryToParsedMessage e), ?_, buildNode_entry _ _ _⟩
  rw [buildMessageTree]
  exact List.mem_map.mpr ⟨entryToParsedMessage e, hroot, rfl⟩

/-- C7 witness: the single-record batch `[exDanglingEntry]`, whose
parent reference "ghost" matches nothing. -/
theorem buildMessageTree_dangling_root_witness :
    (exDanglingEntry ∈ [exDanglingEntry] ∧ isValidEntry exDanglingEntry = true ∧
      (([exDanglingEntry].filter (fun x => isValidEntry x)).map
        (fun x => x.uuid.getD "")).Nodup ∧
      exDanglingEntry.parentUuid = some "ghost" ∧
      (∀ x ∈ [exDanglingEntry], isValidEntry x = true → x.uuid ≠ some "ghost")) ∧
    ∃ r ∈ buildMessageTree [exDanglingEntry],
      r.entry = entryToParsedMessage exDanglingEntry :=
  ⟨⟨List.mem_cons_self _ _, by decide, by decide, by rfl, by decide⟩,
    buildMessageTree_dangling_root [exDanglingEntry] exDanglingEntry
      (List.mem_cons_self _ _) (by decide) (by decide) "ghost" (by rfl) (by decide)⟩

/-! # Claim C9 — the active path is parent-linked -/

theorem wellLinkedList_iff (u : String) (l : List MessageNode) :
    wellLinkedList u l = true ↔
      ∀ c ∈ l, c.entry.parentUuid = some u ∧ wellLinked c = true := by
  induction l with
  | nil => simp [wellLinkedList]
  | cons c cs ih =>
    rw [wellLinkedList]
    constructor
    · intro h
      rcases and_eq_true_iff.mp h with ⟨h1, h2⟩
      rcases and_eq_true_iff.mp h1 with ⟨hpar, hwl⟩
      intro x hx
      rcases List.mem_cons.mp hx with rfl | hx
      · exact ⟨of_decide_eq_true hpar, hwl⟩
      · exact (ih.mp h2) x hx
    · intro h
      have hc := h c (List.mem_cons_self _ _)
      rw [and_eq_true_iff, and_eq_true_iff]
      exact ⟨⟨decide_eq_true hc.1, hc.2⟩,
        ih.mpr (fun x hx => h x (List.mem_cons_of_mem _ hx))⟩

theorem childrenOf_parent (m : List (String × ParsedMessage)) (u : String)
    (v : ParsedMessage) (h : v ∈ childrenOf m u) : v.parentUuid = some u := by
  rw [childrenOf] at h
  rcases List.mem_filter.mp h with ⟨_, hcond⟩
  rcases and_eq_true_iff.mp hcond with ⟨_, h2⟩
  exact of_decide_eq_true h2

theorem buildNode_wellLinked (m : List (String × ParsedMessage)) (fuel : Nat)
    (v : ParsedMessage) : wellLinked (buildNode m fuel v) = true := by
  induction fuel generalizing v with
  | zero => rw [buildNode, wellLinked, wellLinkedList]
  | succ fuel ih =>
    rw [buildNode, wellLinked]
    rw [wellLinkedList_iff]
    intro c hc
    rcases List.mem_map.mp hc with ⟨w, hw, rfl⟩
    rw [buildNode_entry]
    exact ⟨childrenOf_parent m v.uuid w hw, ih w⟩

theorem walkDown_chain (n : MessageNode) (h : wellLinked n = true) :
    List.Chain' (fun a b => b.parentUuid = some a.uuid) (walkDown n) := by
  induction n using walkDown.induct with
  | case1 e => simp [walkDown]
  | case2 e c cs ih =>
    rw [walkDown]
    rw [wellLinked] at h
    have hprops := (wellLinkedList_iff e.uuid (c :: cs)).mp h
    have hpb := hprops (pickBest c cs) (pickBest_mem c cs)
    refine List.chain'_cons'.mpr ⟨?_, ih hpb.2⟩
    intro y hy
    rw [walkDown_head] at hy
    cases hy
    exact hpb.1

/-- C9: the path returned by `resolveActivePath` on any forest built by
`buildMessageTree` is parent-linked — each successive message's
`parentUuid` is the previous message's `uuid` — and, when the path is
non-empty, it starts at the entry of one of the forest roots. -/
theorem resolveActivePath_parent_linked (entries : List RawLogEntry) :
    List.Chain' (fun a b => b.parentUuid = some a.uuid)
      (resolveActivePath (buildMessageTree entries)) ∧
    (resolveActivePath (buildMessageTree entries) = [] ∨
      ∃ r ∈ buildMessageTree entries,
        (resolveActivePath (buildMessageTree entries)).head? = some r.entry) := by
  have hwl : ∀ r ∈ buildMessageTree entries, wellLinked r = true := by
    intro r hr
    rw [buildMessageTree] at hr
    rcases List.mem_map.mp hr with ⟨v, _, rfl⟩
    exact buildNode_wellLinked _ _ _
  cases hb : buildMessageTree entries with
  | nil => simp [resolveActivePath]
  | cons r rs =>
    rw [hb] at hwl
    have hpbmem : pickBest r rs ∈ r :: rs := pickBest_mem r rs
    rw [resolveActivePath]
    refine ⟨walkDown_chain _ (hwl _ hpbmem), Or.inr ⟨pickBest r rs, hpbmem, ?_⟩⟩
    exact walkDown_head _

/-! # Sorting lemmas (deepest-timestamp order) and the first pick -/

theorem insertDesc_perm (x : MessageNode) (l : List MessageNode) :
    List.Perm (insertDesc x l) (x :: l) := by
  induction l with
  | nil => simp [insertDesc]
  | cons y ys ih =>
    rw [insertDesc]
    by_cases h : deepestTimestamp y ≤ deepestTimestamp x
    · rw [if_pos h]
    · rw [if_neg h]
      exact (ih.cons y).trans (List.Perm.swap x y ys)

theorem sortDesc_perm (l : List MessageNode) :
    List.Perm (sortByDeepestDesc l) l := by
  induction l with
  | nil => simp [sortByDeepestDesc]
  | cons x xs ih =>
    rw [sortByDeepestDesc]
    exact (insertDesc_perm x (sortByDeepestDesc xs)).trans (ih.cons x)

theorem sortDesc_length (l : List MessageNode) :
    (sortByDeepestDesc l).length = l.length :=
  (sortDesc_perm l).length_eq

theorem insertDesc_sorted (x : MessageNode) (l : List MessageNode)
    (h : l.Pairwise (fun a b => deepestTimestamp b ≤ deepestTimestamp a)) :
    (insertDesc x l).Pairwise (fun a b => deepestTimestamp b ≤ deepestTimestamp a) := by
  induction l with
  | nil => simp [insertDesc]
  | cons y ys ih =>
    rw [insertDesc]
    rcases List.pairwise_cons.mp h with ⟨hy, hys⟩
    by_cases hxy : deepestTimestamp y ≤ deepestTimestamp x
    · rw [if_pos hxy]
      refine List.pairwise_cons.mpr ⟨?_, h⟩
      intro b hb
      rcases List.mem_cons.mp hb with rfl | hb
      · exact hxy
      · exact le_trans (hy b hb) hxy
    · rw [if_neg hxy]
      refine List.pairwise_cons.mpr ⟨?_, ih hys⟩
      intro b hb
      have hb' := (insertDesc_perm x ys).mem_iff.mp hb
      rcases List.mem_cons.mp hb' with rfl | hb'
      · exact le_of_not_le hxy
      · exact hy b hb'

theorem sortDesc_sorted (l : List MessageNode) :
    (sortByDeepestDesc l).Pairwise
      (fun a b => deepestTimestamp b ≤ deepestTimestamp a) := by
  induction l with
  | nil => simp [sortByDeepestDesc]
  | cons x xs ih => exact insertDesc_sorted x _ ih

theorem pickStep_assoc (a b c : MessageNode) :
    pickStep (pickStep a b) c = pickStep a (pickStep b c) := by
  by_cases h1 : deepestTimestamp a < deepestTimestamp b
  · by_cases h2 : deepestTimestamp b < deepestTimestamp c
    · simp [pickStep, h1, h2, lt_trans h1 h2]
    · simp [pickStep, h1, h2]
  · by_cases h2 : deepestTimestamp b < deepestTimestamp c
    · simp [pickStep, h1, h2]
    · have h3 : ¬ deepestTimestamp a < deepestTimestamp c :=
        not_lt.mpr (le_trans (not_lt.mp h2) (not_lt.mp h1))
      simp [pickStep, h1, h2, h3]

theorem foldl_pickStep_shift (t : List MessageNode) :
    ∀ a b, t.foldl pickStep (pickStep a b) = pickStep a (t.foldl pickStep b) := by
  induction t with
  | nil => intro a b; rfl
  | cons c t ih =>
    intro a b
    rw [List.foldl_cons, List.foldl_cons, pickStep_assoc, ih]

theorem pickBest_cons (a b : MessageNode) (t : List MessageNode) :
    pickBest a (b :: t) = pickStep a (pickBest b t) := by
  rw [pickBest, pickBest, List.foldl_cons, foldl_pickStep_shift]

theorem sortDesc_head (c : MessageNode) (cs : List MessageNode) :
    (sortByDeepestDesc (c :: cs)).head? = some (pickBest c cs) := by
  induction cs generalizing c with
  | nil => rfl
  | cons t0 tl ih =>
    rw [sortByDeepestDesc]
    have hne : sortByDeepestDesc (t0 :: tl) ≠ [] := by
      intro h0
      have := sortDesc_length (t0 :: tl)
      rw [h0] at this
      simp at this
    obtain ⟨y, ys, hys⟩ := List.exists_cons_of_ne_nil hne
    have hy : y = pickBest t0 tl := by
      have hh := ih t0
      rw [hys] at hh
      simpa using hh
    rw [hys, insertDesc, pickBest_cons, ← hy]
    by_cases hcase : deepestTimestamp y ≤ deepestTimestamp c
    · rw [if_pos hcase]
      simp [pickStep, not_lt.mpr hcase]
    · rw [if_neg hcase]
      simp [pickStep, not_le.mp hcase]

/-! # The branch-point loop -/

theorem branchLoop_mem (m : List (String × MessageNode)) :
    ∀ (i : Nat) (l : List ParsedMessage) (bp : BranchPoint), bp ∈ branchLoop m i l →
    ∃ k, ∃ hk : k < l.length, ∃ node : MessageNode,
      mapGet m (l.get ⟨k, hk⟩).uuid = some node ∧
      1 < node.children.length ∧
      bp = { messageIndex := i + k, forkMessageUuid := (l.get ⟨k, hk⟩).uuid,
             paths := (sortByDeepestDesc node.children).map flattenBranch } := by
  intro i l
  induction l generalizing i with
  | nil => intro bp h; simp [branchLoop] at h
  | cons msg rest ih =>
    intro bp h
    rw [branchLoop] at h
    have step : bp ∈ branchLoop m (i + 1) rest →
        ∃ k, ∃ hk : k < (msg :: rest).length, ∃ node : MessageNode,
          mapGet m ((msg :: rest).get ⟨k, hk⟩).uuid = some node ∧
          1 < node.children.length ∧
          bp = { messageIndex := i + k,
                 forkMessageUuid := ((msg :: rest).get ⟨k, hk⟩).uuid,
                 paths := (sortByDeepestDesc node.children).map flattenBranch } := by
      intro hrec
      rcases ih (i + 1) bp hrec with ⟨k, hk, node, h1, h2, h3⟩
      refine ⟨k + 1, by simpa using Nat.succ_lt_succ hk, node, ?_, h2, ?_⟩
      · simpa using h1
      · rw [h3]
        simp [Nat.add_assoc, Nat.add_comm 1 k]
    cases hg : mapGet m msg.uuid with
    | none =>
      simp only [hg] at h
      exact step h
    | some node =>
      simp only [hg] at h
      by_cases hc : node.children.length ≤ 1
      · rw [if_pos hc] at h
        exact step h
      · rw [if_neg hc] at h
        rcases List.mem_cons.mp h with rfl | h
        · exact ⟨0, by simp, node, by simpa using hg, by omega, by simp⟩
        · exact step h

theorem branchLoop_complete (m : List (String × MessageNode)) :
    ∀ (i : Nat) (l : List ParsedMessage) (k : Nat) (hk : k < l.length)
      (node : MessageNode),
      mapGet m (l.get ⟨k, hk⟩).uuid = some node → 1 < node.children.length →
      ({ messageIndex := i + k, forkMessageUuid := (l.get ⟨k, hk⟩).uuid,
         paths := (sortByDeepestDesc node.children).map flattenBranch } : BranchPoint) ∈
        branchLoop m i l := by
  intro i l
  induction l generalizing i with
  | nil => intro k hk; simp at hk
  | cons msg rest ih =>
    intro k hk node hget hchild
    cases k with
    | zero =>
      simp only [List.get] at hget ⊢
      rw [branchLoop]
      simp only [hget, if_neg (show ¬ node.children.length ≤ 1 by omega)]
      simp
    | succ k =>
      have hk' : k < rest.length := by simpa using hk
      have hget' : mapGet m (rest.get ⟨k, hk'⟩).uuid = some node := by
        simpa using hget
      have hmem := ih (i + 1) k hk' node hget' hchild
      have hidx : i + 1 + k = i + (k + 1) := by omega
      rw [branchLoop]
      have hmem' : (⟨i + (k + 1), ((msg :: rest).get ⟨k + 1, hk⟩).uuid,
          (sortByDeepestDesc node.children).map flattenBranch⟩ : BranchPoint) ∈
            branchLoop m (i + 1) rest := by
        have hgeq : ((msg :: rest).get ⟨k + 1, hk⟩) = rest.get ⟨k, hk'⟩ := rfl
        rw [hgeq, ← hidx]
        exact hmem
      cases hg : mapGet m msg.uuid with
      | none => simp only []; exact hmem'
      | some node0 =>
        simp only []
        by_cases hc : node0.children.length ≤ 1
        · rw [if_pos hc]
          exact hmem'
        · rw [if_neg hc]
          exact List.mem_cons_of_mem _ hmem'

theorem branchLoop_index_lower (m : List (String × MessageNode)) :
    ∀ (i : Nat) (l : List ParsedMessage) (bp : BranchPoint),
      bp ∈ branchLoop m i l → i ≤ bp.messageIndex := by
  intro i l
  induction l generalizing i with
  | nil => intro bp h; simp [branchLoop] at h
  | cons msg rest ih =>
    intro bp h
    rw [branchLoop] at h
    have step : bp ∈ branchLoop m (i + 1) rest → i ≤ bp.messageIndex := by
      intro hrec
      have := ih (i + 1) bp hrec
      omega
    cases hg : mapGet m msg.uuid with
    | none => simp only [hg] at h; exact step h
    | some node =>
      simp only [hg] at h
      by_cases hc : node.children.length ≤ 1
      · rw [if_pos hc] at h; exact step h
      · rw [if_neg hc] at h
        rcases List.mem_cons.mp h with rfl | h
        · exact le_refl _
        · exact step h

theorem branchLoop_pairwise (m : List (String × MessageNode)) :
    ∀ (i : Nat) (l : List ParsedMessage),
      ((branchLoop m i l).map (fun bp => bp.messageIndex)).Pairwise (· < ·) := by
  intro i l
  induction l generalizing i with
  | nil => simp [branchLoop]
  | cons msg rest ih =>
    rw [branchLoop]
    cases hg : mapGet m msg.uuid with
    | none => exact ih (i + 1)
    | some node =>
      simp only []
      by_cases hc : node.children.length ≤ 1
      · rw [if_pos hc]
        exact ih (i + 1)
      · rw [if_neg hc]
        rw [List.map_cons]
        refine List.pairwise_cons.mpr ⟨?_, ih (i + 1)⟩
        intro j hj
        rcases List.mem_map.mp hj with ⟨bp, hbp, rfl⟩
        have := branchLoop_index_lower m (i + 1) rest bp hbp
        show i < bp.messageIndex
        omega

/-! # The uuid index built by `collectNodes` -/

theorem mapSet_mem_or {α : Type} (m : List (String × α)) (k0 : String) (v0 : α)
    (k : String) (v : α) (h : (k, v) ∈ mapSet m k0 v0) :
    (k, v) ∈ m ∨ (k = k0 ∧ v = v0) := by
  rw [mapSet] at h
  split at h
  · rcases List.mem_map.mp h with ⟨q, hq, heq⟩
    by_cases hqk : q.1 = k0
    · rw [if_pos hqk] at heq
      right
      exact ⟨congrArg Prod.fst heq.symm, congrArg Prod.snd heq.symm⟩
    · rw [if_neg hqk] at heq
      left
      exact heq ▸ hq
  · rcases List.mem_append.mp h with h | h
    · exact Or.inl h
    · right
      rcases List.mem_singleton.mp h with heq
      exact ⟨congrArg Prod.fst heq, congrArg Prod.snd heq⟩

theorem mapSet_key_self {α : Type} (m : List (String × α)) (k : String) (v : α) :
    k ∈ (mapSet m k v).map (fun p => p.1) := by
  rw [mapSet]
  split
  · next hany =>
    rcases List.any_eq_true.mp hany with ⟨q, hq, hqk⟩
    refine List.mem_map.mpr ⟨(k, v), ?_, rfl⟩
    refine List.mem_map.mpr ⟨q, hq, ?_⟩
    rw [if_pos (of_decide_eq_true hqk)]
  · rw [List.map_append]
    exact List.mem_append_right _ (by simp)

theorem mapSet_key_super {α : Type} (m : List (String × α)) (k : String) (v : α)
    (k' : String) (h : k' ∈ m.map (fun p => p.1)) :
    k' ∈ (mapSet m k v).map (fun p => p.1) := by
  rw [mapSet]
  split
  · rcases List.mem_map.mp h with ⟨q, hq, rfl⟩
    by_cases hqk : q.1 = k
    · refine List.mem_map.mpr ⟨(k, v), List.mem_map.mpr ⟨q, hq, by rw [if_pos hqk]⟩, hqk.symm⟩
    · exact List.mem_map.mpr ⟨q, List.mem_map.mpr ⟨q, hq, by rw [if_neg hqk]⟩, rfl⟩
  · rw [List.map_append]
    exact List.mem_append_left _ h

theorem collect_mem (roots : List MessageNode) (m : List (String × MessageNode)) :
    ∀ (k : String) (v : MessageNode), (k, v) ∈ collectNodes roots m →
      (k, v) ∈ m ∨ (v ∈ subNodesList roots ∧ k = v.entry.uuid) := by
  induction roots, m using collectNodes.induct with
  | case1 m =>
    intro k v h
    rw [collectNodes] at h
    exact Or.inl h
  | case2 e cs rest m ih1 ih2 =>
    intro k v h
    rw [collectNodes] at h
    rcases ih2 k v h with h2 | ⟨hsub, hk⟩
    · rcases ih1 k v h2 with h1 | ⟨hsub, hk⟩
      · rcases mapSet_mem_or m e.uuid (MessageNode.mk e cs) k v h1 with h0 | ⟨hk, hv⟩
        · exact Or.inl h0
        · subst hk
          subst hv
          right
          refine ⟨?_, rfl⟩
          rw [subNodesList, subNodes]
          exact List.mem_append_left _ (List.mem_cons_self _ _)
      · right
        refine ⟨?_, hk⟩
        rw [subNodesList, subNodes]
        exact List.mem_append_left _ (List.mem_cons_of_mem _ hsub)
    · right
      refine ⟨?_, hk⟩
      rw [subNodesList]
      exact List.mem_append_right _ hsub

theorem collect_keys_mono (roots : List MessageNode) (m : List (String × MessageNode)) :
    ∀ k, k ∈ m.map (fun p => p.1) → k ∈ (collectNodes roots m).map (fun p => p.1) := by
  induction roots, m using collectNodes.induct with
  | case1 m =>
    intro k h
    rw [collectNodes]
    exact h
  | case2 e cs rest m ih1 ih2 =>
    intro k h
    rw [collectNodes]
    exact ih2 k (ih1 k (mapSet_key_super m e.uuid (MessageNode.mk e cs) k h))

theorem collect_keys_complete (roots : List MessageNode) (m : List (String × MessageNode)) :
    ∀ n ∈ subNodesList roots, n.entry.uuid ∈ (collectNodes roots m).map (fun p => p.1) := by
  induction roots, m using collectNodes.induct with
  | case1 m => intro n hn; simp [subNodesList] at hn
  | case2 e cs rest m ih1 ih2 =>
    intro n hn
    rw [subNodesList] at hn
    rw [collectNodes]
    rcases List.mem_append.mp hn with hn | hn
    · rw [subNodes] at hn
      rcases List.mem_cons.mp hn with rfl | hn
      · exact collect_keys_mono rest _ _
          (collect_keys_mono cs _ _ (by simpa using mapSet_key_self m e.uuid (MessageNode.mk e cs)))
      · exact collect_keys_mono rest _ _ (ih1 n hn)
    · exact ih2 n hn

theorem mapGet_some_mem {α : Type} (m : List (String × α)) (k : String) (v : α)
    (h : mapGet m k = some v) : (k, v) ∈ m := by
  rw [mapGet] at h
  rcases Option.map_eq_some'.mp h with ⟨q, hfind, hq2⟩
  have hmem := List.mem_of_find?_eq_some hfind
  have hkey : q.1 = k := by
    have := List.find?_some hfind
    simpa using this
  have : (k, v) = q := by
    rw [← hkey, ← hq2]
  rwa [this]

theorem mapGet_isSome_of_key {α : Type} (m : List (String × α)) (k : String)
    (h : k ∈ m.map (fun p => p.1)) : ∃ v, mapGet m k = some v := by
  rcases List.mem_map.mp h with ⟨q, hq, rfl⟩
  cases hr : m.find? (fun p => p.1 = q.1) with
  | none =>
    exfalso
    have := List.find?_eq_none.mp hr q hq
    simp at this
  | some r => exact ⟨r.2, by rw [mapGet, hr]; rfl⟩

theorem collect_get_unique (roots : List MessageNode)
    (huuid : ((subNodesList roots).map (fun n => n.entry.uuid)).Nodup)
    (n : MessageNode) (hn : n ∈ subNodesList roots) :
    mapGet (collectNodes roots []) n.entry.uuid = some n := by
  rcases mapGet_isSome_of_key _ _ (collect_keys_complete roots [] n hn) with ⟨v, hv⟩
  have hmem := mapGet_some_mem _ _ _ hv
  rcases collect_mem roots [] _ _ hmem with h0 | ⟨hvsub, hkey⟩
  · simp at h0
  · have : v = n :=
      List.inj_on_of_nodup_map huuid hvsub hn hkey.symm
    rwa [this] at hv

/-! # The descent trace -/

theorem walkDown_eq_descend (n : MessageNode) :
    walkDown n = (descendNodes n).map MessageNode.entry := by
  induction n using descendNodes.induct with
  | case1 e => rw [walkDown, descendNodes]; simp
  | case2 e c cs ih => rw [walkDown, descendNodes, List.map_cons, entry_mk, ih]

theorem descendNodes_head (n : MessageNode) :
    ∃ t, descendNodes n = n :: t := by
  cases n with
  | mk e cs =>
    cases cs with
    | nil => exact ⟨[], by rw [descendNodes]⟩
    | cons c cs => exact ⟨_, by rw [descendNodes]⟩

theorem descendNodes_leaf_eq (e : ParsedMessage) :
    descendNodes (MessageNode.mk e []) = [MessageNode.mk e []] := by
  rw [descendNodes]

theorem descendNodes_cons_eq (e : ParsedMessage) (c : MessageNode) (cs : List MessageNode) :
    descendNodes (MessageNode.mk e (c :: cs)) =
      MessageNode.mk e (c :: cs) :: descendNodes (pickBest c cs) := by
  rw [descendNodes]

theorem descendNodes_drop_eq :
    ∀ (k : Nat) (n m : MessageNode), (descendNodes n)[k]? = some m →
      (descendNodes n).drop k = descendNodes m := by
  intro k
  induction k with
  | zero =>
    intro n m hm
    rcases descendNodes_head n with ⟨t, ht⟩
    rw [ht] at hm
    simp only [List.getElem?_cons_zero, Option.some_inj] at hm
    subst hm
    rw [List.drop_zero]
  | succ k ih =>
    intro n m hm
    cases n with
    | mk e cs =>
      cases cs with
      | nil =>
        rw [descendNodes_leaf_eq] at hm
        simp at hm
      | cons c cs =>
        rw [descendNodes_cons_eq] at hm ⊢
        rw [List.getElem?_cons_succ] at hm
        rw [List.drop_succ_cons]
        exact ih (pickBest c cs) m hm

theorem mem_subNodesList_iff (l : List MessageNode) (x : MessageNode) :
    x ∈ subNodesList l ↔ ∃ c ∈ l, x ∈ subNodes c := by
  induction l with
  | nil => simp [subNodesList]
  | cons c cs ih =>
    rw [subNodesList, List.mem_append, ih]
    constructor
    · rintro (h | ⟨d, hd, hx⟩)
      · exact ⟨c, List.mem_cons_self _ _, h⟩
      · exact ⟨d, List.mem_cons_of_mem _ hd, hx⟩
    · rintro ⟨d, hd, hx⟩
      rcases List.mem_cons.mp hd with rfl | hd
      · exact Or.inl hx
      · exact Or.inr ⟨d, hd, hx⟩

theorem subNodes_self (n : MessageNode) : n ∈ subNodes n := by
  cases n with
  | mk e cs =>
    rw [subNodes]
    exact List.mem_cons_self _ _

theorem subNodesList_trans :
    ∀ (l : List MessageNode) (m x : MessageNode),
      m ∈ subNodesList l → x ∈ subNodes m → x ∈ subNodesList l
  | [], m, x, hm, _ => by
    rw [subNodesList] at hm
    simp at hm
  | MessageNode.mk e cs0 :: cs, m, x, hm, hx => by
    rw [subNodesList] at hm ⊢
    rcases List.mem_append.mp hm with h1 | h2
    · rw [subNodes] at h1
      rcases List.mem_cons.mp h1 with rfl | h1
      · exact List.mem_append_left _ hx
      · have hrec := subNodesList_trans cs0 m x h1 hx
        refine List.mem_append_left _ ?_
        rw [subNodes]
        exact List.mem_cons_of_mem _ hrec
    · exact List.mem_append_right _ (subNodesList_trans cs m x h2 hx)
termination_by l => sizeOf l
decreasing_by
  · simp only [List.cons.sizeOf_spec, MessageNode.mk.sizeOf_spec]
    omega
  · simp only [List.cons.sizeOf_spec]
    omega

theorem descend_mem_subNodes (n : MessageNode) :
    ∀ x ∈ descendNodes n, x ∈ subNodes n := by
  induction n using descendNodes.induct with
  | case1 e =>
    intro x hx
    rw [descendNodes] at hx
    rcases List.mem_singleton.mp hx with rfl
    exact subNodes_self _
  | case2 e c cs ih =>
    intro x hx
    rw [descendNodes] at hx
    rcases List.mem_cons.mp hx with rfl | hx
    · exact subNodes_self _
    · have hxpb := ih x hx
      have hpbl : pickBest c cs ∈ subNodesList (c :: cs) :=
        (mem_subNodesList_iff (c :: cs) (pickBest c cs)).mpr
          ⟨pickBest c cs, pickBest_mem c cs, subNodes_self _⟩
      have hxl : x ∈ subNodesList (c :: cs) := subNodesList_trans _ _ _ hpbl hxpb
      rw [subNodes]
      exact List.mem_cons_of_mem _ hxl

theorem mem_subNodesList_of_mem (roots : List MessageNode) (n : MessageNode)
    (h : n ∈ roots) : n ∈ subNodesList roots :=
  (mem_subNodesList_iff roots n).mpr ⟨n, h, subNodes_self n⟩

/-! # Concrete evaluations of the fork examples -/

theorem exForkPath_eval :
    exForkPath = [mkMsg "a1" none "1", mkMsg "u3" (some "a1") "3"] := by
  simp +decide [exForkPath, exForkForest, resolveActivePath, walkDown, pickBest, pickStep,
    deepestTimestamp, deepestAux, mkMsg]

theorem exFork_eval :
    getBranchPoints exForkForest exForkPath = [exForkBp] := by
  have hc : collectNodes exForkForest [] =
      [("a1", MessageNode.mk (mkMsg "a1" none "1")
          [.mk (mkMsg "u2" (some "a1") "2") [], .mk (mkMsg "u3" (some "a1") "3") []]),
       ("u2", MessageNode.mk (mkMsg "u2" (some "a1") "2") []),
       ("u3", MessageNode.mk (mkMsg "u3" (some "a1") "3") [])] := by
    simp +decide [exForkForest, collectNodes, mapSet, mkMsg]
  rw [exForkPath_eval, getBranchPoints, hc]
  simp +decide [branchLoop, mapGet, exForkBp, sortByDeepestDesc, insertDesc, deepestTimestamp,
    deepestAux, flattenBranch, walkDown, mkMsg, List.find?]

/-! # Claim C10 — branch point invariants -/

/-- C10: every returned BranchPoint has at least two paths — as many as
the fork node (found in the uuid index) has children — each path
non-empty, its `messageIndex` inside the active path, and the
`messageIndex` values strictly increasing across the returned list. -/
theorem getBranchPoints_invariants (roots : List MessageNode) (ap : List ParsedMessage) :
    (∀ bp ∈ getBranchPoints roots ap,
      2 ≤ bp.paths.length ∧
      (∀ q ∈ bp.paths, q ≠ []) ∧
      (∃ node : MessageNode,
        mapGet (collectNodes roots []) bp.forkMessageUuid = some node ∧
        bp.paths.length = node.children.length) ∧
      bp.messageIndex < ap.length) ∧
    ((getBranchPoints roots ap).map (fun bp => bp.messageIndex)).Pairwise (· < ·) := by
  constructor
  · intro bp hbp
    rw [getBranchPoints] at hbp
    rcases branchLoop_mem _ 0 ap bp hbp with ⟨k, hk, node, hget, hchild, heq⟩
    have hlen : bp.paths.length = node.children.length := by
      rw [heq]
      simp [sortDesc_length]
    refine ⟨by rw [hlen]; omega, ?_, ⟨node, ?_, hlen⟩, ?_⟩
    · intro q hq
      rw [heq] at hq
      simp only at hq
      rcases List.mem_map.mp hq with ⟨c, _, rfl⟩
      exact walkDown_ne_nil c
    · rw [heq]
      exact hget
    · rw [heq]
      show 0 + k < ap.length
      omega
  · rw [getBranchPoints]
    exact branchLoop_pairwise _ 0 ap

/-- C10 witness: the invariants instantiated at the branch point of
`exForkForest`. -/
theorem getBranchPoints_invariants_witness :
    exForkBp ∈ getBranchPoints exForkForest exForkPath ∧
    (2 ≤ exForkBp.paths.length ∧
      (∀ q ∈ exForkBp.paths, q ≠ []) ∧
      (∃ node : MessageNode,
        mapGet (collectNodes exForkForest []) exForkBp.forkMessageUuid = some node ∧
        exForkBp.paths.length = node.children.length) ∧
      exForkBp.messageIndex < exForkPath.length) :=
  ⟨by rw [exFork_eval]; exact List.mem_cons_self _ _,
    (getBranchPoints_invariants exForkForest exForkPath).1 exForkBp
      (by rw [exFork_eval]; exact List.mem_cons_self _ _)⟩

/-! # Claim C3 — newest-first ordering of branch paths -/

/-- C3 counterexample: with two children of equal deepest timestamp,
`paths[1]`'s origin subtree is exactly as recent as `paths[0]`'s, not
strictly older. -/
theorem branchPoint_strictly_older_cex :
    getBranchPoints cexForestC3 (resolveActivePath cexForestC3) =
      [{ messageIndex := 0, forkMessageUuid := "r",
         paths := [[mkMsg "u2" (some "r") "2"], [mkMsg "u3" (some "r") "2"]] }] ∧
    ¬ deepestTimestamp (MessageNode.mk (mkMsg "u3" (some "r") "2") []) <
        deepestTimestamp (MessageNode.mk (mkMsg "u2" (some "r") "2") []) := by
  constructor
  · have hap : resolveActivePath cexForestC3 =
        [mkMsg "r" none "1", mkMsg "u2" (some "r") "2"] := by
      simp +decide [cexForestC3, resolveActivePath, walkDown, pickBest, pickStep,
        deepestTimestamp, deepestAux, mkMsg]
    have hc : collectNodes cexForestC3 [] =
        [("r", MessageNode.mk (mkMsg "r" none "1")
            [.mk (mkMsg "u2" (some "r") "2") [], .mk (mkMsg "u3" (some "r") "2") []]),
         ("u2", MessageNode.mk (mkMsg "u2" (some "r") "2") []),
         ("u3", MessageNode.mk (mkMsg "u3" (some "r") "2") [])] := by
      simp +decide [cexForestC3, collectNodes, mapSet, mkMsg]
    rw [hap, getBranchPoints, hc]
    simp +decide [branchLoop, mapGet, sortByDeepestDesc, insertDesc, deepestTimestamp,
      deepestAux, flattenBranch, walkDown, mkMsg, List.find?]
  · simp [deepestTimestamp, deepestAux, mkMsg]

/-- C3 (amended): within every returned BranchPoint the paths are the
flattenings of the fork's children sorted so that deepest-descendant
timestamps are non-increasing: for `i < j`, the origin subtree of
`paths[i]` is at least as recent as that of `paths[j]` (equal deepest
timestamps are possible, so "strictly older" holds only up to ties). -/
theorem branchPoint_newest_first (roots : List MessageNode) (ap : List ParsedMessage)
    (bp : BranchPoint) (hbp : bp ∈ getBranchPoints roots ap) :
    ∃ cs : List MessageNode, bp.paths = cs.map flattenBranch ∧
      cs.Pairwise (fun a b => deepestTimestamp b ≤ deepestTimestamp a) := by
  rw [getBranchPoints] at hbp
  rcases branchLoop_mem _ 0 ap bp hbp with ⟨k, hk, node, _, _, heq⟩
  exact ⟨sortByDeepestDesc node.children, by rw [heq], sortDesc_sorted _⟩

/-- C3 witness: instantiated at the branch point of `exForkForest`. -/
theorem branchPoint_newest_first_witness :
    exForkBp ∈ getBranchPoints exForkForest exForkPath ∧
    ∃ cs : List MessageNode, exForkBp.paths = cs.map flattenBranch ∧
      cs.Pairwise (fun a b => deepestTimestamp b ≤ deepestTimestamp a) :=
  ⟨by rw [exFork_eval]; exact List.mem_cons_self _ _,
    branchPoint_newest_first exForkForest exForkPath exForkBp
      (by rw [exFork_eval]; exact List.mem_cons_self _ _)⟩

/-! # Claim C2 — one BranchPoint per fork, `paths[0]` is the active
continuation -/

/-- C2 counterexample: at the fork of `exForkForest` (position 0 of the
active path), `paths[0]` is the flattening of the newest child — the
suffix of the active path starting immediately *after* the fork — and
not the suffix starting *at* the fork, which still contains the fork
message itself. -/
theorem getBranchPoints_suffix_cex :
    getBranchPoints exForkForest exForkPath = [exForkBp] ∧
    exForkBp.paths.head? = some [mkMsg "u3" (some "a1") "3"] ∧
    exForkPath.drop exForkBp.messageIndex ≠ [mkMsg "u3" (some "a1") "3"] := by
  refine ⟨exFork_eval, by rfl, ?_⟩
  rw [exForkPath_eval]
  intro h
  have := congrArg List.length h
  simp [exForkBp] at this

/-- C2 (amended): on a forest with pairwise-distinct uuids and the
active path resolved from it, `getBranchPoints` returns exactly one
BranchPoint per active-path position whose node has more than one
child (the `messageIndex` values are strictly increasing, and a
position carries a BranchPoint iff its node forks), and each
BranchPoint's `paths[0]` equals the suffix of the active path starting
immediately after the fork (at `messageIndex + 1`). -/
theorem getBranchPoints_fork_suffix (roots : List MessageNode) (ap : List ParsedMessage)
    (huuid : ((subNodesList roots).map (fun n => n.entry.uuid)).Nodup)
    (hap : ap = resolveActivePath roots) :
    (∀ bp ∈ getBranchPoints roots ap,
      bp.paths.head? = some (ap.drop (bp.messageIndex + 1))) ∧
    (∀ (k : Nat) (hk : k < ap.length),
      ((∃ bp ∈ getBranchPoints roots ap, bp.messageIndex = k) ↔
        ∃ n ∈ subNodesList roots, n.entry = ap.get ⟨k, hk⟩ ∧ 1 < n.children.length)) ∧
    ((getBranchPoints roots ap).map (fun bp => bp.messageIndex)).Pairwise (· < ·) := by
  cases roots with
  | nil =>
    have hap0 : ap = [] := by rw [hap]; rfl
    subst hap0
    refine ⟨?_, ?_, ?_⟩
    · intro bp hbp
      rw [getBranchPoints] at hbp
      simp [branchLoop] at hbp
    · intro k hk
      simp at hk
    · rw [getBranchPoints]
      exact branchLoop_pairwise _ 0 []
  | cons r rs =>
    have hpbsub : pickBest r rs ∈ subNodesList (r :: rs) :=
      mem_subNodesList_of_mem _ _ (pickBest_mem r rs)
    have hap' : ap = (descendNodes (pickBest r rs)).map MessageNode.entry := by
      rw [hap, resolveActivePath, walkDown_eq_descend]
    have hlen : ap.length = (descendNodes (pickBest r rs)).length := by
      rw [hap', List.length_map]
    have hmain : ∀ (k : Nat) (hk : k < ap.length),
        ∃ nk : MessageNode, (descendNodes (pickBest r rs))[k]? = some nk ∧
          nk ∈ subNodesList (r :: rs) ∧ ap.get ⟨k, hk⟩ = nk.entry := by
      intro k hk
      have hk2 : k < (descendNodes (pickBest r rs)).length := hlen ▸ hk
      refine ⟨(descendNodes (pickBest r rs)).get ⟨k, hk2⟩, ?_, ?_, ?_⟩
      · rw [List.getElem?_eq_getElem hk2]
        rfl
      · exact subNodesList_trans _ _ _ hpbsub
          (descend_mem_subNodes _ _ (List.get_mem _ _ _))
      · have hopt : ap[k]? =
            some ((descendNodes (pickBest r rs)).get ⟨k, hk2⟩).entry := by
          rw [hap', List.getElem?_map, List.getElem?_eq_getElem hk2]
          rfl
        have hopt2 : ap[k]? = some (ap.get ⟨k, hk⟩) := by
          rw [List.getElem?_eq_getElem hk]
          rfl
        rw [hopt2] at hopt
        exact Option.some_inj.mp hopt
    refine ⟨?_, ?_, by rw [getBranchPoints]; exact branchLoop_pairwise _ 0 ap⟩
    · -- paths[0] is the continuation after the fork
      intro bp hbp
      rw [getBranchPoints] at hbp
      rcases branchLoop_mem _ 0 ap bp hbp with ⟨k, hk, node, hget2, hchild2, heq2⟩
      obtain ⟨nk, hnkopt, hnkmem, hnkentry⟩ := hmain k hk
      have hget : mapGet (collectNodes (r :: rs) []) ((ap.get ⟨k, hk⟩).uuid) = some nk := by
        rw [hnkentry]
        exact collect_get_unique _ huuid nk hnkmem
      have hnode : node = nk := by
        rw [hget2] at hget
        exact Option.some_inj.mp hget
      subst hnode
      obtain ⟨c, cs1, hcs⟩ : ∃ c cs1, node.children = c :: cs1 := by
        cases hnc : node.children with
        | nil => rw [hnc] at hchild2; simp at hchild2
        | cons c cs1 => exact ⟨c, cs1, rfl⟩
      have hhead : bp.paths.head? = some (flattenBranch (pickBest c cs1)) := by
        rw [heq2]
        show ((sortByDeepestDesc node.children).map flattenBranch).head? = _
        rw [hcs, List.head?_map, sortDesc_head]
        rfl
      have hmsg : bp.messageIndex = k := by
        rw [heq2]
        show 0 + k = k
        omega
      have hdrop : ap.drop (k + 1) = flattenBranch (pickBest c cs1) := by
        have h1 : (descendNodes (pickBest r rs)).drop k = descendNodes node :=
          descendNodes_drop_eq k _ node hnkopt
        have h2 : (descendNodes (pickBest r rs)).drop (k + 1) =
            (descendNodes node).drop 1 := by
          rw [← h1, List.drop_drop, Nat.add_comm]
        have h3 : (descendNodes node).drop 1 = descendNodes (pickBest c cs1) := by
          rcases node with ⟨e0, cs0⟩
          rw [children_mk] at hcs
          subst hcs
          rw [descendNodes_cons_eq]
          rfl
        rw [hap', ← List.map_drop, h2, h3, flattenBranch, walkDown_eq_descend]
      rw [hhead, hmsg, hdrop]
    · -- exactly one BranchPoint per forking position
      intro k hk
      obtain ⟨nk, hnkopt, hnkmem, hnkentry⟩ := hmain k hk
      have hget : mapGet (collectNodes (r :: rs) []) ((ap.get ⟨k, hk⟩).uuid) = some nk := by
        rw [hnkentry]
        exact collect_get_unique _ huuid nk hnkmem
      constructor
      · rintro ⟨bp, hbp, hbk⟩
        rw [getBranchPoints] at hbp
        rcases branchLoop_mem _ 0 ap bp hbp with ⟨k2, hk2, node, hget2, hchild2, heq2⟩
        have hk2k : k2 = k := by
          have : bp.messageIndex = 0 + k2 := by rw [heq2]
          omega
        subst hk2k
        have hsame : ap.get ⟨k2, hk2⟩ = ap.get ⟨k2, hk⟩ := rfl
        rw [hsame] at hget2
        have hnode : node = nk := by
          rw [hget2] at hget
          exact Option.some_inj.mp hget
        subst hnode
        exact ⟨node, hnkmem, hnkentry.symm, hchild2⟩
      · rintro ⟨n, hnmem, hnentry, hnchild⟩
        have hne : n = nk :=
          List.inj_on_of_nodup_map huuid hnmem hnkmem
            (by rw [hnentry, hnkentry])
        subst hne
        refine ⟨BranchPoint.mk (0 + k) ((ap.get ⟨k, hk⟩).uuid)
            ((sortByDeepestDesc n.children).map flattenBranch), ?_, ?_⟩
        · rw [getBranchPoints]
          exact branchLoop_complete _ 0 ap k hk n hget hnchild
        · show 0 + k = k
          omega

/-- C2 witness: the amended statement instantiated on `exForkForest`
(distinct uuids, path resolved from the forest). -/
theorem getBranchPoints_fork_suffix_witness :
    (((subNodesList exForkForest).map (fun n => n.entry.uuid)).Nodup ∧
      exForkPath = resolveActivePath exForkForest) ∧
    ((∀ bp ∈ getBranchPoints exForkForest exForkPath,
        bp.paths.head? = some (exForkPath.drop (bp.messageIndex + 1))) ∧
      (∀ (k : Nat) (hk : k < exForkPath.length),
        ((∃ bp ∈ getBranchPoints exForkForest exForkPath, bp.messageIndex = k) ↔
          ∃ n ∈ subNodesList exForkForest,
            n.entry = exForkPath.get ⟨k, hk⟩ ∧ 1 < n.children.length)) ∧
      ((getBranchPoints exForkForest exForkPath).map
        (fun bp => bp.messageIndex)).Pairwise (· < ·)) :=
  ⟨⟨by simp +decide [exForkForest, subNodesList, subNodes, mkMsg], rfl⟩,
    getBranchPoints_fork_suffix exForkForest exForkPath
      (by simp +decide [exForkForest, subNodesList, subNodes, mkMsg]) rfl⟩

end SessionViewer
